import Mathlib

/-!
Formal model of the rendering/export pipeline of the cover-letter tool
(`src/App.jsx`): template substitution, blank-line normalization, date
formatting, filename slugs, greedy word wrap and the fixed-layout (PDF)
page loop.  Text is modelled as `List Char`; JavaScript regular-expression
replaces are modelled as recursive scanners with the same semantics
(leftmost match, greedy character-class quantifiers, scanning resumes
after the replacement, the replacement itself is never rescanned).
All definitions are structurally recursive so that they evaluate inside
the kernel.
-/

/-- Text is a list of characters. -/
abbrev Str := List Char

/-- The ASCII members of JavaScript's `\s` character class (space, tab,
newline, carriage return, vertical tab, form feed).  The app only ever
feeds ASCII template text to these scanners, so the Unicode space members
are omitted. -/
def isJsSpace (c : Char) : Bool :=
  c = ' ' || c = '\t' || c = '\n' || c = '\x0d' || c = '\x0b' || c = '\x0c'

/-- Horizontal whitespace `[ \t]` as used by `compressBlankLines`. -/
def isHT (c : Char) : Bool := c = ' ' || c = '\t'

/-- JavaScript `String.prototype.trim`. -/
def jsTrim (s : Str) : Str :=
  ((s.dropWhile isJsSpace).reverse.dropWhile isJsSpace).reverse

/-- Scanner for JavaScript `line.split(/\s+/)`.  The second argument is
`some acc` while inside a field whose characters so far are `acc` reversed,
and `none` while inside a (maximal) whitespace run. -/
def splitWsA : Str → Option Str → List Str
  | [], some acc => [acc.reverse]
  | [], none => [[]]
  | c :: t, some acc =>
    if isJsSpace c then acc.reverse :: splitWsA t none else splitWsA t (some (c :: acc))
  | c :: t, none =>
    if isJsSpace c then splitWsA t none else splitWsA t (some [c])

/-- JavaScript `line.split(/\s+/)`: fields separated by maximal whitespace
runs; a leading run contributes a leading empty field and a trailing run a
trailing empty field (exactly as in JS). -/
def splitWs (s : Str) : List Str := splitWsA s (some [])

/-- Scanner for JavaScript `text.split("\n")`. -/
def splitNlA : Str → Str → List Str
  | [], acc => [acc.reverse]
  | c :: t, acc => if c = '\n' then acc.reverse :: splitNlA t [] else splitNlA t (c :: acc)

/-- JavaScript `text.split("\n")`. -/
def splitNl (s : Str) : List Str := splitNlA s []

/-- Emit the word accumulated (in reverse) by `wordsAux`, if any. -/
def emitW (acc : Str) : List Str := if acc = [] then [] else [acc.reverse]

/-- Accumulator-passing scanner producing the (nonempty) whitespace-separated
words of a string; `acc` is the current word reversed. -/
def wordsAux : Str → Str → List Str
  | [], acc => emitW acc
  | c :: t, acc => if isJsSpace c then emitW acc ++ wordsAux t [] else wordsAux t (c :: acc)

/-- The whitespace-separated words of a string (empty fields dropped). -/
def wordsOf (s : Str) : List Str := wordsAux s []

/-- Join a list of lines with single spaces (as in the wrap-reconstruction
property: `lines.flatten(" ")`). -/
def joinSpace : List Str → Str
  | [] => []
  | [l] => l
  | l :: ls => l ++ ' ' :: joinSpace ls

/-- Whitespace normalization: runs of whitespace collapsed to single spaces,
leading/trailing whitespace dropped. -/
def normWs (s : Str) : Str := joinSpace (wordsOf s)

section Wrap

variable {W : Type} [LinearOrder W]

/-- One step of the character-by-character greedy pack that `wrapLine` falls
back to for a word wider than `maxWidth`; the state is the pair of lines
pushed so far and the current chunk. -/
def charStep (measure : Str → W) (maxWidth : W) (st : List Str × Str) (ch : Char) :
    List Str × Str :=
  let cand2 := st.2 ++ [ch]
  if measure cand2 ≤ maxWidth then (st.1, cand2) else (st.1 ++ [st.2], [ch])

/-- The character-by-character greedy pack of a single word (the inner
`for (const ch of word)` loop of `wrapLine`), starting from an empty chunk. -/
def charPack (measure : Str → W) (maxWidth : W) (word : Str) : List Str × Str :=
  word.foldl (charStep measure maxWidth) ([], [])

/-- One step of `wrapLine`'s outer `for (const word of words)` loop; the state
is the pair of completed lines and the current accumulator. -/
def wrapStep (measure : Str → W) (maxWidth : W) (st : List Str × Str) (word : Str) :
    List Str × Str :=
  let candidate := if st.2 = [] then word else st.2 ++ ' ' :: word
  if measure candidate ≤ maxWidth then (st.1, candidate)
  else
    let ls1 := if st.2 = [] then st.1 else st.1 ++ [st.2]
    if maxWidth < measure word then
      let p := charPack measure maxWidth word
      (ls1 ++ p.1, p.2)
    else (ls1, word)

/-- The greedy word wrap `wrapLine` from `downloadPdf`: a blank line yields a
single empty output line; otherwise the line is split on whitespace runs and
packed greedily, falling back to a character-level pack for a word wider than
`maxWidth`. -/
def wrapLine (measure : Str → W) (maxWidth : W) (line : Str) : List Str :=
  if jsTrim line = [] then [[]]
  else
    let st := (splitWs line).foldl (wrapStep measure maxWidth) ([], [])
    if st.2 = [] then st.1 else st.1 ++ [st.2]

end Wrap

example : wrapLine (List.length) 2 ('a' :: 'b' :: 'c' :: 'd' :: []) =
    [['a', 'b'], ['c', 'd']] := by decide

example : wrapLine (List.length) 0 ('a' :: 'b' :: []) =
    [[], ['a'], ['b']] := by decide

example : wrapLine (List.length) 5 ("ab cd x".data) =
    ["ab cd".data, "x".data] := by decide

example : splitWs (" a  b ".data) = ["".data, "a".data, "b".data, "".data] := by decide

example : splitNl ("a\nb\n".data) = ["a".data, "b".data, "".data] := by decide

example : normWs ("  a  b ".data) = "a b".data := by decide

/-! ## `compressBlankLines`

`compressBlankLines` first replaces every `\r\n` with `\n` (the global
replace `s.replace(/\r\n/g, "\n")`) and then runs the global replace
`normalized.replace(/\n[ \t]*\n([ \t]*\n)+/g, "\n\n")`.  The second regex
is deterministic (its character classes `[ \t]`, `\n` are disjoint), so a
match starting at a `\n` greedily consumes the maximal following run of
`[ \t]*\n` groups and succeeds exactly when at least two such groups
follow.  `nlRun` computes that greedy run; `blankRep` is the global
replace built on it (emit `"\n\n"`, resume after the match). -/

/-- The global replace `s.replace(/\r\n/g, "\n")`:  scan left to right,
replacing each `\r\n` pair; the scan resumes after a replacement, so a
`\r` directly before a replaced pair is left in place (e.g. `"\r\r\n"`
becomes `"\r\n"`). -/
def rnRep : Str → Str
  | [] => []
  | [c] => [c]
  | c :: d :: t =>
    if c = '\x0d' && d = '\n' then '\n' :: rnRep t else c :: rnRep (d :: t)

/-- Greedy scanner for `([ \t]*\n)*`: counts how many `[ \t]*\n` groups can
be consumed from the front and returns the unconsumed rest.  `pend` holds
horizontal whitespace read since the last consumed `\n` (reversed); it is
given back if no further `\n` follows. -/
def nlRunA : Str → Str → Nat × Str
  | [], pend => (0, pend.reverse)
  | c :: t, pend =>
    if c = '\n' then
      let p := nlRunA t []
      (p.1 + 1, p.2)
    else if isHT c then nlRunA t (c :: pend)
    else (0, pend.reverse ++ c :: t)

/-- Greedy parse of `([ \t]*\n)*` from the front of a string. -/
def nlRun (s : Str) : Nat × Str := nlRunA s []

/-- Try to consume a single `[ \t]*\n` group. -/
def munch (s : Str) : Option Str :=
  match s.dropWhile isHT with
  | '\n' :: r => some r
  | _ => none

/-- Fuelled scanner for the global replace
`replace(/\n[ \t]*\n([ \t]*\n)+/g, "\n\n")`: at each `\n` the greedy run
of following `[ \t]*\n` groups is measured; with at least two groups the
whole match is replaced by `"\n\n"` and scanning resumes after it,
otherwise the `\n` is emitted and scanning resumes at the next character.
The fuel argument only makes the recursion structural; it is irrelevant
as soon as it is at least the length of the string. -/
def blankRepF : Nat → Str → Str
  | 0, _ => []
  | _ + 1, [] => []
  | fuel + 1, c :: t =>
    if c = '\n' then
      let p := nlRun t
      if 2 ≤ p.1 then '\n' :: '\n' :: blankRepF fuel p.2
      else '\n' :: blankRepF fuel t
    else c :: blankRepF fuel t

/-- The global replace `replace(/\n[ \t]*\n([ \t]*\n)+/g, "\n\n")`. -/
def blankRep (s : Str) : Str := blankRepF s.length s

/-- `compressBlankLines` from `App.jsx`: the empty string is returned as is
(`if (!s) return ""`); otherwise line endings are normalized and every
blank-line run is collapsed. -/
def compressBlankLines (s : Str) : Str :=
  if s = [] then [] else blankRep (rnRep s)

/-- Does a string start with two newline characters? -/
def startsNlNl : Str → Bool
  | a :: b :: _ => a = '\n' && b = '\n'
  | _ => false

/-- Checker for the invariant "contains no three consecutive newline
characters". -/
def noTriple : Str → Bool
  | [] => true
  | c :: t => !(c = '\n' && startsNlNl t) && noTriple t

example : compressBlankLines ("a\n\n\n\nb\t\n \n\nc".data) = "a\n\nb\t\n\nc".data := by
  decide

example : compressBlankLines ("\x0d\x0d\n".data) = "\x0d\n".data := by decide

example : compressBlankLines (compressBlankLines ("\x0d\x0d\n".data)) = "\n".data := by
  decide

example : noTriple ("a\n\nb".data) = true := by decide

example : noTriple ("a\n\n\nb".data) = false := by decide

/-! ## `applyTemplate`

`applyTemplate(template, values)` is the global replace
`template.replace(/\{\{\s*([a-zA-Z0-9_]+)\s*\}\}/g, (_, key) => (values[key] ?? "").toString())`.
A JavaScript property access `values[key]` yields a string, `null`, or
`undefined` (absent key); `?? ""` turns the latter two into the empty
string.  The pattern's character classes are pairwise disjoint, so matching
at a position is deterministic: after `{{`, skip whitespace, read a
nonempty identifier, skip whitespace, and require `}}`. -/

/-- A value looked up in the `values` object: a string, `null`, or
`undefined` (absent key). -/
inductive JsVal where
  | absent
  | jsNull
  | jsStr (s : Str)
deriving DecidableEq

/-- Is the looked-up value present (JavaScript `values[key] !== undefined`)? -/
def JsVal.isPresent : JsVal → Bool
  | .absent => false
  | _ => true

/-- JavaScript `(v ?? "").toString()` for a looked-up value. -/
def jsStrOrEmpty : JsVal → Str
  | .absent => []
  | .jsNull => []
  | .jsStr s => s

/-- The identifier class `[a-zA-Z0-9_]` of the placeholder pattern. -/
def isIdentChar (c : Char) : Bool := c.isAlpha || c.isDigit || c = '_'

/-- Deterministic match of `\s*([a-zA-Z0-9_]+)\s*\}\}` (the part of the
placeholder pattern after the opening braces); returns the captured key and
the rest of the string after the match. -/
def matchPlaceholder (s : Str) : Option (Str × Str) :=
  let s1 := s.dropWhile isJsSpace
  let key := s1.takeWhile isIdentChar
  if key = [] then none
  else
    match (s1.dropWhile isIdentChar).dropWhile isJsSpace with
    | '}' :: '}' :: r => some (key, r)
    | _ => none

/-- Fuelled scanner of the placeholder replace: at `{{` try the rest of the
pattern; on success emit the looked-up value (verbatim — the replacement is
not rescanned) and resume after the match; on failure emit one character
and rescan from the next position.  Fuel is irrelevant once it is at least
the length of the string. -/
def applyTemplateAuxF (values : Str → JsVal) : Nat → Str → Str
  | 0, _ => []
  | _ + 1, [] => []
  | _ + 1, [c] => [c]
  | fuel + 1, c :: d :: t =>
    if c = '{' ∧ d = '{' then
      (match matchPlaceholder t with
       | some (k, rest) => jsStrOrEmpty (values k) ++ applyTemplateAuxF values fuel rest
       | none => '{' :: applyTemplateAuxF values fuel (d :: t))
    else c :: applyTemplateAuxF values fuel (d :: t)

/-- `applyTemplate(template, values)` from `App.jsx`. -/
def applyTemplate (template : Str) (values : Str → JsVal) : Str :=
  applyTemplateAuxF values template.length template

/-- The keys of every placeholder token occurring (at any position) in a
string: at each `{{` whose tail matches the rest of the placeholder
pattern, the captured key is recorded. -/
def tokenKeysAt : Str → List Str
  | [] => []
  | [_] => []
  | c :: d :: t =>
    (if c = '{' ∧ d = '{' then
      (match matchPlaceholder t with
       | some (k, _) => [k]
       | none => [])
    else []) ++ tokenKeysAt (d :: t)

/-- A template in which every occurrence of `{{` begins a full placeholder
token whose key is present in `values`. -/
def wellFormedTemplate (values : Str → JsVal) : Str → Bool
  | [] => true
  | [_] => true
  | c :: d :: t =>
    (if c = '{' ∧ d = '{' then
      (match matchPlaceholder t with
       | some (k, _) => (values k).isPresent
       | none => false)
    else true) && wellFormedTemplate values (d :: t)

/-- Does a string start with an opening brace? -/
def startsBrace : Str → Bool
  | c :: _ => c = '{'
  | [] => false

/-- Checker for "contains no two adjacent opening braces". -/
def noDoubleBrace : Str → Bool
  | [] => true
  | c :: t => !(c = '{' && startsBrace t) && noDoubleBrace t

/-- A string containing no brace characters. -/
def braceFree (s : Str) : Bool := s.all fun c => !(c = '{' || c = '}')

example :
    applyTemplate ("Dear \x7b\x7b name \x7d\x7d!".data)
      (fun k => if k = "name".data then .jsStr "Ann".data else .absent) =
    "Dear Ann!".data := by decide

example :
    applyTemplate ("a \x7b\x7bmissing\x7d\x7d b".data) (fun _ => .absent) =
    "a  b".data := by decide

example :
    applyTemplate ("\x7b\x7b \x7d\x7d".data) (fun _ => .jsStr "v".data) =
    "\x7b\x7b \x7d\x7d".data := by decide

example :
    applyTemplate ("\x7b\x7bx\x7b\x7ba\x7d\x7dy\x7d\x7d".data)
      (fun k => if k = "a".data then .jsStr [] else .absent) =
    "\x7b\x7bxy\x7d\x7d".data := by decide

example : tokenKeysAt ("\x7b\x7bx\x7b\x7ba\x7d\x7dy\x7d\x7d".data) = [['a']] := by decide

/-! ## `formatToCanadianLong`

The source tests the input against `/^\d{4}-\d{2}-\d{2}$/`; on a match it
builds `new Date(value + "T00:00:00")` and, when that date is valid,
formats it with `Intl.DateTimeFormat("en-CA", {day:"2-digit", month:"long",
year:"numeric"})`.  Any other input (including a matching string that is
not a real calendar date, which yields an invalid `Date`) is returned
unchanged.  `Date` and `Intl` are platform facilities, not code of this
repository: validity of an ISO local date-time string (real calendar date,
leap years included) matches the ECMAScript engines the app runs on, and
the locale rendering is modelled from the spec's example
`formatDate("2026-02-11") = "11 February 2026"` (day, space, full English
month name, space, year). -/

/-- Numeric value of a decimal digit character. -/
def digitVal (c : Char) : Nat := c.toNat - '0'.toNat

/-- The anchored test `/^\d{4}-\d{2}-\d{2}$/` together with extraction of
the year, month and day numbers. -/
def isoParse : Str → Option (Nat × Nat × Nat)
  | [y1, y2, y3, y4, h1, m1, m2, h2, d1, d2] =>
    if y1.isDigit && y2.isDigit && y3.isDigit && y4.isDigit && h1 = '-' &&
        m1.isDigit && m2.isDigit && h2 = '-' && d1.isDigit && d2.isDigit then
      some (((digitVal y1 * 10 + digitVal y2) * 10 + digitVal y3) * 10 + digitVal y4,
        digitVal m1 * 10 + digitVal m2, digitVal d1 * 10 + digitVal d2)
    else none
  | _ => none

/-- Gregorian leap year. -/
def isLeap (y : Nat) : Bool := (y % 4 = 0 && y % 100 ≠ 0) || y % 400 = 0

/-- Days in a month of the Gregorian calendar. -/
def daysInMonth (y m : Nat) : Nat :=
  if m = 2 then (if isLeap y then 29 else 28)
  else if m = 4 || m = 6 || m = 9 || m = 11 then 30
  else 31

/-- Full English month names. -/
def monthName (m : Nat) : Str :=
  (["January".data, "February".data, "March".data, "April".data, "May".data,
    "June".data, "July".data, "August".data, "September".data, "October".data,
    "November".data, "December".data]).getD (m - 1) []

/-- Two-digit zero-padded day (`day: "2-digit"`). -/
def pad2 (n : Nat) : Str := if n < 10 then '0' :: (Nat.repr n).data else (Nat.repr n).data

/-- Modelled from the spec: the fixed-locale long rendering produced by
`Intl.DateTimeFormat("en-CA", {day:"2-digit", month:"long", year:"numeric"})`,
per the spec's example `"2026-02-11" ↦ "11 February 2026"`. -/
def canadianLongFormat (y m d : Nat) : Str :=
  pad2 d ++ ' ' :: (monthName m ++ ' ' :: (Nat.repr y).data)

/-- `formatToCanadianLong` from `App.jsx`. -/
def formatToCanadianLong (v : Str) : Str :=
  if v = [] then []
  else
    match isoParse v with
    | some (y, m, d) =>
      if 1 ≤ m && m ≤ 12 && 1 ≤ d && d ≤ daysInMonth y m then canadianLongFormat y m d
      else v
    | none => v

example : formatToCanadianLong ("2026-02-11".data) = "11 February 2026".data := by decide

example : formatToCanadianLong ("2026-02-31".data) = "2026-02-31".data := by decide

/-! ## `slugifyFilePart` and export filenames -/

/-- The class `[\s/\\]` replaced by underscores in `slugifyFilePart`. -/
def isSlugSep (c : Char) : Bool := isJsSpace c || c = '/' || c = '\\'

/-- The class `[a-zA-Z0-9_-]` of characters kept by `slugifyFilePart`. -/
def isSlugKeep (c : Char) : Bool := c.isAlpha || c.isDigit || c = '_' || c = '-'

/-- Scanner for a global replace of runs of class-`p` characters by the
single character `r`; the flag records whether the scan is inside a run. -/
def replaceRunsA (p : Char → Bool) (r : Char) : Str → Bool → Str
  | [], _ => []
  | c :: t, inRun =>
    if p c then
      (if inRun then replaceRunsA p r t true else r :: replaceRunsA p r t true)
    else c :: replaceRunsA p r t false

/-- Global replace of maximal runs of class-`p` characters by `r`
(`replace(/p+/g, r)`). -/
def replaceRuns (p : Char → Bool) (r : Char) (s : Str) : Str := replaceRunsA p r s false

/-- `slugifyFilePart` from `App.jsx`: trim, turn whitespace/slash runs into
underscores, strip everything outside `[a-zA-Z0-9_-]` (a run replaced by the
empty string deletes each character), collapse underscore runs, truncate to
40 characters. -/
def slugifyFilePart (s : Str) : Str :=
  (replaceRuns (fun c => c = '_') '_'
    ((replaceRuns isSlugSep '_' (jsTrim s)).filter isSlugKeep)).take 40

/-- JavaScript `s || dflt` for strings (the empty string is falsy). -/
def orStr (s dflt : Str) : Str := if s = [] then dflt else s

/-- The PDF export filename
`CoverLetter_${company}_${position}.pdf` with the `|| "Company"` /
`|| "Position"` fallbacks. -/
def pdfFileName (employer position : Str) : Str :=
  "CoverLetter_".data ++ orStr (slugifyFilePart employer) ("Company".data) ++
    '_' :: (orStr (slugifyFilePart position) ("Position".data) ++ ".pdf".data)

example : slugifyFilePart ("Bashundhara Group / Ltd.".data) =
    "Bashundhara_Group_Ltd".data := by decide

/-! ## The fixed-layout (PDF) page loop

`downloadPdf` splits the rendered text on `"\n"`, wraps each raw line with
`wrapLine`, and places the wrapped lines at a vertical cursor that starts
at `PAGE_H - MARGIN` and decreases by `LINE_HEIGHT` before each line; a
line whose position falls below the bottom margin is not drawn and both
loops break.  All lengths are exact decimal fractions of a point
(595.28, 841.89, 72, 14.5), so they are represented as integers in
hundredths of a point — an order- and arithmetic-preserving rescaling of
the source constants by 100.  The abstract `measure` stands for
`font.widthOfTextAtSize(text, FONT_SIZE)` in the same unit. -/

/-- A4 page width: 595.28 points, in hundredths of a point. -/
def PAGE_W : ℤ := 59528

/-- A4 page height: 841.89 points, in hundredths of a point. -/
def PAGE_H : ℤ := 84189

/-- The 1-inch (72-point) page margin, in hundredths of a point. -/
def MARGIN : ℤ := 7200

/-- The fixed 14.5-point line height, in hundredths of a point. -/
def LINE_HEIGHT : ℤ := 1450

/-- The wrap width `PAGE_W - MARGIN * 2`. -/
def pdfMaxWidth : ℤ := PAGE_W - MARGIN * 2

/-- Result of the page loop: final cursor, drawn lines with their vertical
positions (in drawing order), and whether the loop broke because a line no
longer fit (the overflow condition). -/
structure LayoutResult where
  y : ℤ
  drawn : List (Str × ℤ)
  overflow : Bool
deriving DecidableEq

/-- The inner `for (const line of wrapped)` loop of `downloadPdf`:
decrement the cursor, stop (without drawing) once it falls below the
margin, otherwise draw at the new cursor. -/
def linRun : List Str → ℤ → List (Str × ℤ) → LayoutResult
  | [], y, acc => ⟨y, acc, false⟩
  | l :: ls, y, acc =>
    let y2 := y - LINE_HEIGHT
    if y2 < MARGIN then ⟨y2, acc, true⟩
    else linRun ls y2 (acc ++ [(l, y2)])

/-- The outer `for (const p of paragraphs)` loop of `downloadPdf`: wrap each
raw line, run the inner loop, and stop for good once the cursor is below
the margin. -/
def outerLoop (measure : Str → ℤ) : List Str → ℤ → List (Str × ℤ) → LayoutResult
  | [], y, acc => ⟨y, acc, false⟩
  | p :: ps, y, acc =>
    let r := linRun (wrapLine measure pdfMaxWidth p) y acc
    if r.y < MARGIN then ⟨r.y, r.drawn, true⟩
    else outerLoop measure ps r.y r.drawn

/-- The whole page-layout pass of `downloadPdf` on the rendered text. -/
def pdfLayout (measure : Str → ℤ) (text : Str) : LayoutResult :=
  outerLoop measure (splitNl text) (PAGE_H - MARGIN) []

example :
    (pdfLayout (fun s => (s.length : ℤ)) ("hi\nyou".data)).drawn =
      [("hi".data, PAGE_H - MARGIN - LINE_HEIGHT),
       ("you".data, PAGE_H - MARGIN - 2 * LINE_HEIGHT)] := by
  decide

/-- The expected annotation of drawn lines: each line is placed one
`LINE_HEIGHT` below the previous position, starting one step below `y`. -/
def annotate : List Str → ℤ → List (Str × ℤ)
  | [], _ => []
  | l :: ls, y => (l, y - LINE_HEIGHT) :: annotate ls (y - LINE_HEIGHT)

/-! ## The rendered document -/

/-- The form fields (the `fields` state record, template included). -/
structure Fields where
  date : Str
  employerCompanyName : Str
  companyAddressLine1 : Str
  companyAddressLine2 : Str
  position : Str
  template : Str

/-- The `normalized` values object built in the `rendered` memo: the spread
field values plus `employerName`/`companyName` (the trimmed merged field)
and the formatted date. -/
def normalizedValues (f : Fields) : Str → JsVal := fun k =>
  if k = "date".data then .jsStr (formatToCanadianLong f.date)
  else if k = "employerCompanyName".data then .jsStr f.employerCompanyName
  else if k = "companyAddressLine1".data then .jsStr f.companyAddressLine1
  else if k = "companyAddressLine2".data then .jsStr f.companyAddressLine2
  else if k = "position".data then .jsStr f.position
  else if k = "employerName".data then .jsStr (jsTrim f.employerCompanyName)
  else if k = "companyName".data then .jsStr (jsTrim f.employerCompanyName)
  else .absent

/-- The rendered document: template substitution followed by blank-line
compression. -/
def rendered (f : Fields) : Str :=
  compressBlankLines (applyTemplate f.template (normalizedValues f))

/-! ## Helper lemmas for `slugifyFilePart` -/

/-- Every character of a run-replace output is the replacement character or
comes from the input. -/
theorem mem_replaceRunsA (p : Char → Bool) (r : Char) :
    ∀ (s : Str) (b : Bool) (c : Char), c ∈ replaceRunsA p r s b → c = r ∨ c ∈ s := by
  intro s
  induction s with
  | nil => intro b c h; simp [replaceRunsA] at h
  | cons d t ih =>
    intro b c h
    simp only [replaceRunsA] at h
    by_cases hp : p d = true
    · simp only [hp, if_true] at h
      cases b with
      | true =>
        rcases ih true c h with h1 | h1
        · exact Or.inl h1
        · exact Or.inr (List.mem_cons_of_mem _ h1)
      | false =>
        simp only [Bool.false_eq_true, if_false] at h
        rcases List.mem_cons.1 h with h1 | h1
        · exact Or.inl h1
        · rcases ih true c h1 with h2 | h2
          · exact Or.inl h2
          · exact Or.inr (List.mem_cons_of_mem _ h2)
    · simp only [hp, if_false] at h
      rcases List.mem_cons.1 h with h1 | h1
      · exact Or.inr (h1 ▸ List.mem_cons_self _ _)
      · rcases ih false c h1 with h2 | h2
        · exact Or.inl h2
        · exact Or.inr (List.mem_cons_of_mem _ h2)

/-- Every character of a slug is in the kept class `[a-zA-Z0-9_-]`. -/
theorem slugifyFilePart_chars (s : Str) (c : Char) (h : c ∈ slugifyFilePart s) :
    isSlugKeep c = true := by
  unfold slugifyFilePart at h
  have h1 := List.take_subset 40 _ h
  rcases mem_replaceRunsA _ _ _ _ _ h1 with h2 | h2
  · subst h2; decide
  · exact (List.mem_filter.1 h2).2

/-- C7: `formatToCanadianLong` maps the canonical `YYYY-MM-DD` form to the
fixed-locale long rendering (`"2026-02-11" ↦ "11 February 2026"`), and
returns any input that does not match the canonical form unchanged. -/
theorem formatToCanadianLong_spec :
    formatToCanadianLong ("2026-02-11".data) = "11 February 2026".data ∧
    ∀ v, isoParse v = none → formatToCanadianLong v = v := by
  refine ⟨by decide, ?_⟩
  intro v h
  by_cases hv : v = []
  · simp [formatToCanadianLong, hv]
  · simp [formatToCanadianLong, hv, h]

/-- Witness for C7: the already-formatted legacy value `"11 February 2026"`
does not match the canonical form and passes through unchanged. -/
theorem formatToCanadianLong_spec_wit :
    isoParse ("11 February 2026".data) = none ∧
    formatToCanadianLong ("11 February 2026".data) = "11 February 2026".data :=
  ⟨by decide, formatToCanadianLong_spec.2 _ (by decide)⟩

/-- C9: the PDF filename is `CoverLetter_<Company>_<Position>.pdf` where each
part is the slug of the corresponding field with the literal fallbacks
`"Company"`/`"Position"` when the slug is empty; slugs are truncated to 40
characters, contain only `[a-zA-Z0-9_-]`, and
`slugifyFilePart "Bashundhara Group / Ltd." = "Bashundhara_Group_Ltd"`. -/
theorem slugifyFilePart_spec :
    slugifyFilePart ("Bashundhara Group / Ltd.".data) = "Bashundhara_Group_Ltd".data ∧
    (∀ s, (slugifyFilePart s).length ≤ 40) ∧
    (∀ s c, c ∈ slugifyFilePart s → isSlugKeep c = true) ∧
    (∀ e p, pdfFileName e p =
      "CoverLetter_".data ++ orStr (slugifyFilePart e) ("Company".data) ++
        '_' :: (orStr (slugifyFilePart p) ("Position".data) ++ ".pdf".data)) ∧
    orStr [] ("Company".data) = "Company".data ∧
    orStr [] ("Position".data) = "Position".data := by
  refine ⟨by decide, ?_, slugifyFilePart_chars, fun e p => rfl, rfl, rfl⟩
  intro s
  simp [slugifyFilePart]

/-- Witness for C9: the slug of `"ABC Corp!"` is computed, each of its
characters is in the kept class, and the filename for concrete fields has
the documented shape. -/
theorem slugifyFilePart_spec_wit :
    ('A' ∈ slugifyFilePart ("ABC Corp!".data) ∧
      isSlugKeep 'A' = true) ∧
    (slugifyFilePart ("ABC Corp!".data)).length ≤ 40 ∧
    pdfFileName ("ABC Corp!".data) [] = "CoverLetter_ABC_Corp_Position.pdf".data :=
  ⟨⟨by decide, slugifyFilePart_spec.2.2.1 ("ABC Corp!".data) 'A' (by decide)⟩,
    slugifyFilePart_spec.2.1 _,
    by rw [slugifyFilePart_spec.2.2.2.1]; decide⟩

/-! ## Helper lemmas for `compressBlankLines` -/

/-- Induction on lists by length. -/
theorem list_length_induction {α : Type} (P : List α → Prop)
    (h : ∀ l, (∀ l2, l2.length < l.length → P l2) → P l) : ∀ l, P l := by
  have key : ∀ (n : ℕ) (l : List α), l.length ≤ n → P l := by
    intro n
    induction n with
    | zero => exact fun l hl => h l (fun l2 h2 => by omega)
    | succ n ih => exact fun l hl => h l (fun l2 h2 => ih l2 (by omega))
  exact fun l => key l.length l le_rfl

theorem isHT_ne_nl {c : Char} (h : isHT c = true) : c ≠ '\n' := by
  rcases Bool.or_eq_true_iff.1 h with h1 | h1 <;>
    simp only [decide_eq_true_eq] at h1 <;> subst h1 <;> decide

theorem nlRunA_snd_length : ∀ (s pend : Str), (nlRunA s pend).2.length ≤ pend.length + s.length := by
  intro s
  induction s with
  | nil => intro pend; simp [nlRunA]
  | cons c t ih =>
    intro pend
    simp only [nlRunA]
    by_cases h1 : c = '\n'
    · have := ih ([] : Str)
      simp only [h1, if_true, List.length_nil, Nat.zero_add, List.length_cons] at this ⊢
      omega
    · cases h2 : isHT c with
      | true =>
        have := ih (c :: pend)
        simp only [h1, h2, if_false, if_true, List.length_cons] at this ⊢
        omega
      | false =>
        simp only [h1, h2, if_false, Bool.false_eq_true, List.length_append,
          List.length_reverse, List.length_cons]
        omega

theorem nlRun_snd_length (s : Str) : (nlRun s).2.length ≤ s.length := by
  have := nlRunA_snd_length s []
  simpa [nlRun] using this

theorem mem_nlRunA_snd : ∀ (s pend : Str) (c : Char),
    c ∈ (nlRunA s pend).2 → c ∈ pend ∨ c ∈ s := by
  intro s
  induction s with
  | nil =>
    intro pend c h
    simp only [nlRunA, List.mem_reverse] at h
    exact Or.inl h
  | cons d t ih =>
    intro pend c h
    simp only [nlRunA] at h
    by_cases h1 : d = '\n'
    · simp only [h1, if_true] at h
      rcases ih [] c h with h2 | h2
      · simp at h2
      · exact Or.inr (List.mem_cons_of_mem _ h2)
    · cases h2 : isHT d with
      | true =>
        simp only [h1, h2, if_false, if_true] at h
        rcases ih (d :: pend) c h with h3 | h3
        · rcases List.mem_cons.1 h3 with h4 | h4
          · exact Or.inr (h4 ▸ List.mem_cons_self _ _)
          · exact Or.inl h4
        · exact Or.inr (List.mem_cons_of_mem _ h3)
      | false =>
        simp only [h1, h2, if_false, Bool.false_eq_true, List.mem_append,
          List.mem_reverse] at h
        rcases h with h3 | h3
        · exact Or.inl h3
        · exact Or.inr h3

theorem mem_nlRun_snd {s : Str} {c : Char} (h : c ∈ (nlRun s).2) : c ∈ s := by
  rcases mem_nlRunA_snd s [] c h with h1 | h1
  · simp at h1
  · exact h1

theorem munch_cons_ht {c : Char} (h : isHT c = true) (l : Str) : munch (c :: l) = munch l := by
  simp [munch, List.dropWhile, h]

theorem munch_cons_nl (l : Str) : munch ('\n' :: l) = some l := rfl

theorem munch_none_of_head {c : Char} (h1 : isHT c = false) (h2 : c ≠ '\n') (l : Str) :
    munch (c :: l) = none := by
  simp only [munch, List.dropWhile, h1, Bool.false_eq_true, if_false]
  split
  · rename_i r heq
    exact absurd (List.cons.injEq _ _ _ _ ▸ heq).1 h2
  · rfl


theorem dropWhile_head_false {α : Type} (p : α → Bool) : ∀ (l : List α) {c : α} {t : List α},
    l.dropWhile p = c :: t → p c = false := by
  intro l
  induction l with
  | nil => intro c t h; simp at h
  | cons a l2 ih =>
    intro c t h
    rw [List.dropWhile_cons] at h
    split at h
    · exact ih h
    · rename_i hpa
      injection h with h1 _
      subst h1
      simpa using hpa

theorem munch_some_decomp {s r : Str} (h : munch s = some r) :
    s = s.takeWhile isHT ++ '\n' :: r := by
  unfold munch at h
  split at h
  · rename_i r2 heq
    obtain rfl : r2 = r := by injection h
    rw [← heq]
    exact (List.takeWhile_append_dropWhile _ _).symm
  · exact absurd h (by simp)

theorem nlRunA_ht_front : ∀ (w : Str), (∀ c ∈ w, isHT c = true) → ∀ (s pend : Str),
    nlRunA (w ++ s) pend = nlRunA s (w.reverse ++ pend) := by
  intro w
  induction w with
  | nil => intro _ s pend; simp
  | cons c w2 ih =>
    intro hw s pend
    have hc : isHT c = true := hw c (List.mem_cons_self _ _)
    have hcn : c ≠ '\n' := isHT_ne_nl hc
    rw [List.cons_append]
    show (if c = '\n' then
        ((nlRunA (w2 ++ s) []).1 + 1, (nlRunA (w2 ++ s) []).2)
      else if isHT c then nlRunA (w2 ++ s) (c :: pend)
      else (0, pend.reverse ++ c :: (w2 ++ s))) = nlRunA s ((c :: w2).reverse ++ pend)
    rw [if_neg hcn, if_pos hc, ih (fun d hd => hw d (List.mem_cons_of_mem _ hd)) s (c :: pend)]
    simp

theorem munch_ht_front : ∀ (w : Str), (∀ c ∈ w, isHT c = true) → ∀ (x : Str),
    munch (w ++ x) = munch x := by
  intro w
  induction w with
  | nil => intro _ x; rfl
  | cons c w2 ih =>
    intro hw x
    rw [List.cons_append, munch_cons_ht (hw c (List.mem_cons_self _ _))]
    exact ih (fun d hd => hw d (List.mem_cons_of_mem _ hd)) x

theorem nlRun_succ {s r : Str} (h : munch s = some r) :
    nlRun s = ((nlRun r).1 + 1, (nlRun r).2) := by
  have hw : ∀ c ∈ s.takeWhile isHT, isHT c = true := fun c hc => List.mem_takeWhile_imp hc
  conv_lhs => rw [nlRun, munch_some_decomp h]
  rw [nlRunA_ht_front _ hw]
  simp [nlRunA, nlRun]

theorem nlRun_eq_zero {s : Str} (h : munch s = none) : nlRun s = (0, s) := by
  have hw : ∀ c ∈ s.takeWhile isHT, isHT c = true := fun c hc => List.mem_takeWhile_imp hc
  unfold munch at h
  cases hd : s.dropWhile isHT with
  | nil =>
    have hs : s = s.takeWhile isHT ++ ([] : Str) := by
      rw [List.append_nil]
      conv_lhs => rw [← List.takeWhile_append_dropWhile (p := isHT) (l := s), hd]
      rw [List.append_nil]
    conv_lhs => rw [nlRun, hs]
    rw [nlRunA_ht_front _ hw]
    simp only [nlRunA, List.append_nil, List.reverse_reverse]
    conv_rhs => rw [hs, List.append_nil]
  | cons c t =>
    rw [hd] at h
    have hcn : c ≠ '\n' := by
      intro hc
      subst hc
      simp at h
    have hcht : isHT c = false := dropWhile_head_false isHT s hd
    have hs : s = s.takeWhile isHT ++ c :: t := by
      conv_lhs => rw [← List.takeWhile_append_dropWhile (p := isHT) (l := s), hd]
    conv_lhs => rw [nlRun, hs]
    rw [nlRunA_ht_front _ hw]
    simp only [nlRunA, hcn, if_false, hcht, Bool.false_eq_true, List.append_nil,
      List.reverse_reverse]
    rw [← hs]

theorem munch_none_of_count_zero {s : Str} (h : (nlRun s).1 = 0) : munch s = none := by
  cases hm : munch s with
  | none => rfl
  | some r =>
    rw [nlRun_succ hm] at h
    simp at h

theorem munch_some_length {s r : Str} (h : munch s = some r) : r.length < s.length := by
  have hd := munch_some_decomp h
  have h2 : s.length = (s.takeWhile isHT).length + (r.length + 1) := by
    conv_lhs => rw [hd]
    simp [List.length_append]
  omega

theorem nlRun_stop : ∀ (s : Str), munch (nlRun s).2 = none := by
  refine list_length_induction _ ?_
  intro s ih
  cases hm : munch s with
  | none => rw [nlRun_eq_zero hm]; exact hm
  | some r =>
    rw [nlRun_succ hm]
    exact ih r (munch_some_length hm)

theorem nlRun_one {t : Str} (h : (nlRun t).1 = 1) :
    ∃ r, munch t = some r ∧ munch r = none ∧ (nlRun t).2 = r := by
  cases hm : munch t with
  | none => rw [nlRun_eq_zero hm] at h; simp at h
  | some r =>
    have hs := nlRun_succ hm
    rw [hs] at h
    have h0 : (nlRun r).1 = 0 := by omega
    have hmr : munch r = none := munch_none_of_count_zero h0
    refine ⟨r, rfl, hmr, ?_⟩
    rw [hs, nlRun_eq_zero hmr]

theorem blankRepF_congr : ∀ (s : Str) (f1 f2 : ℕ), s.length ≤ f1 → s.length ≤ f2 →
    blankRepF f1 s = blankRepF f2 s := by
  refine list_length_induction _ ?_
  intro s ih f1 f2 h1 h2
  cases s with
  | nil => cases f1 <;> cases f2 <;> rfl
  | cons c t =>
    simp only [List.length_cons] at h1 h2
    cases f1 with
    | zero => omega
    | succ g1 =>
      cases f2 with
      | zero => omega
      | succ g2 =>
        have hlt : t.length < (c :: t).length := by simp
        simp only [blankRepF]
        by_cases hc : c = '\n'
        · simp only [hc, if_true]
          by_cases hn : 2 ≤ (nlRun t).1
          · have hl := nlRun_snd_length t
            have hlt2 : (nlRun t).2.length < (c :: t).length := by
              simp only [List.length_cons]; omega
            simp only [hn, if_true]
            rw [ih (nlRun t).2 hlt2 g1 g2 (by omega) (by omega)]
          · simp only [hn, if_false]
            rw [ih t hlt g1 g2 (by omega) (by omega)]
        · simp only [hc, if_false]
          rw [ih t hlt g1 g2 (by omega) (by omega)]

theorem blankRep_nil : blankRep [] = [] := rfl

theorem blankRep_cons_ne {c : Char} (h : c ≠ '\n') (t : Str) :
    blankRep (c :: t) = c :: blankRep t := by
  simp only [blankRep, List.length_cons, blankRepF, h, if_false]

theorem blankRep_nl_lt {t : Str} (h : (nlRun t).1 < 2) :
    blankRep ('\n' :: t) = '\n' :: blankRep t := by
  have h2 : ¬ 2 ≤ (nlRun t).1 := by omega
  simp only [blankRep, List.length_cons, blankRepF, if_true, h2, if_false]

theorem blankRep_nl_ge {t : Str} (h : 2 ≤ (nlRun t).1) :
    blankRep ('\n' :: t) = '\n' :: '\n' :: blankRep (nlRun t).2 := by
  simp only [blankRep, List.length_cons, blankRepF, if_true, h]
  rw [blankRepF_congr _ t.length _ (nlRun_snd_length t) le_rfl]

theorem munch_blankRep_none : ∀ (t : Str), munch t = none → munch (blankRep t) = none := by
  refine list_length_induction _ ?_
  intro t ih h
  cases t with
  | nil => exact h
  | cons c t2 =>
    have hlt : t2.length < (c :: t2).length := by simp
    by_cases hc : c = '\n'
    · subst hc
      rw [munch_cons_nl] at h
      exact absurd h (by simp)
    · rw [blankRep_cons_ne hc]
      cases hht : isHT c with
      | true =>
        rw [munch_cons_ht hht] at h ⊢
        exact ih t2 hlt h
      | false => exact munch_none_of_head hht hc _

theorem blankRep_ht_front : ∀ (w : Str), (∀ c ∈ w, isHT c = true) → ∀ (x : Str),
    blankRep (w ++ x) = w ++ blankRep x := by
  intro w
  induction w with
  | nil => intro _ x; rfl
  | cons c w2 ih =>
    intro hw x
    have hc := hw c (List.mem_cons_self _ _)
    rw [List.cons_append, blankRep_cons_ne (isHT_ne_nl hc),
      ih (fun d hd => hw d (List.mem_cons_of_mem _ hd)) x, List.cons_append]

theorem blankRep_idem : ∀ (s : Str), blankRep (blankRep s) = blankRep s := by
  refine list_length_induction _ ?_
  intro s ih
  cases s with
  | nil => rfl
  | cons c t =>
    have hlt : t.length < (c :: t).length := by simp
    by_cases hc : c = '\n'
    · subst hc
      by_cases hn : 2 ≤ (nlRun t).1
      · rw [blankRep_nl_ge hn]
        have hstop : munch (nlRun t).2 = none := nlRun_stop t
        have hpres : munch (blankRep (nlRun t).2) = none :=
          munch_blankRep_none _ hstop
        have h0 : (nlRun (blankRep (nlRun t).2)).1 = 0 := by
          rw [nlRun_eq_zero hpres]
        have h1 : (nlRun ('\n' :: blankRep (nlRun t).2)).1 = 1 := by
          rw [nlRun_succ (munch_cons_nl _)]
          omega
        rw [blankRep_nl_lt (by omega), blankRep_nl_lt (by omega)]
        have hlt2 : (nlRun t).2.length < ('\n' :: t).length := by
          have := nlRun_snd_length t
          simp only [List.length_cons]
          omega
        rw [ih (nlRun t).2 hlt2]
      · rw [blankRep_nl_lt (by omega)]
        have hlt2 : (nlRun (blankRep t)).1 < 2 := by
          cases hcount : (nlRun t).1 with
          | zero =>
            have hm := munch_none_of_count_zero hcount
            rw [nlRun_eq_zero (munch_blankRep_none t hm)]
            omega
          | succ n =>
            have h1 : (nlRun t).1 = 1 := by omega
            obtain ⟨r, hmr, hmrn, -⟩ := nlRun_one h1
            have hw : ∀ c2 ∈ t.takeWhile isHT, isHT c2 = true :=
              fun _ hc2 => List.mem_takeWhile_imp hc2
            have hr0 : (nlRun r).1 < 2 := by
              rw [nlRun_eq_zero hmrn]
              omega
            have hbt : blankRep t = t.takeWhile isHT ++ '\n' :: blankRep r := by
              conv_lhs => rw [munch_some_decomp hmr]
              rw [blankRep_ht_front _ hw, blankRep_nl_lt hr0]
            have hmm : munch (t.takeWhile isHT ++ '\n' :: blankRep r) =
                some (blankRep r) := by
              rw [munch_ht_front _ hw, munch_cons_nl]
            rw [hbt, nlRun_succ hmm, nlRun_eq_zero (munch_blankRep_none r hmrn)]
            omega
        rw [blankRep_nl_lt hlt2, ih t hlt]
    · rw [blankRep_cons_ne hc, blankRep_cons_ne hc, ih t hlt]

theorem rnRep_id : ∀ (s : Str), '\x0d' ∉ s → rnRep s = s := by
  refine list_length_induction _ ?_
  intro s ih h
  rcases s with _ | ⟨c, _ | ⟨d, t⟩⟩
  · rfl
  · rfl
  · have hc : c ≠ '\x0d' := fun he => h (he ▸ List.mem_cons_self _ _)
    have hcond : (c = '\x0d' && d = '\n') = false := by
      simp [hc]
    rw [rnRep, hcond]
    simp only [Bool.false_eq_true, if_false]
    rw [ih (d :: t) (by simp) (fun hd => h (List.mem_cons_of_mem _ hd))]

theorem mem_blankRep : ∀ (s : Str) (c : Char), c ∈ blankRep s → c ∈ s ∨ c = '\n' := by
  refine list_length_induction _ ?_
  intro s ih c h
  cases s with
  | nil => rw [blankRep_nil] at h; simp at h
  | cons a t =>
    have hlt : t.length < (a :: t).length := by simp
    by_cases ha : a = '\n'
    · subst ha
      by_cases hn : 2 ≤ (nlRun t).1
      · rw [blankRep_nl_ge hn] at h
        rcases List.mem_cons.1 h with h1 | h1
        · exact Or.inr h1
        · rcases List.mem_cons.1 h1 with h2 | h2
          · exact Or.inr h2
          · have hlt2 : (nlRun t).2.length < ('\n' :: t).length := by
              have := nlRun_snd_length t
              simp only [List.length_cons]
              omega
            rcases ih (nlRun t).2 hlt2 c h2 with h3 | h3
            · exact Or.inl (List.mem_cons_of_mem _ (mem_nlRun_snd h3))
            · exact Or.inr h3
      · rw [blankRep_nl_lt (by omega)] at h
        rcases List.mem_cons.1 h with h1 | h1
        · exact Or.inr h1
        · rcases ih t hlt c h1 with h2 | h2
          · exact Or.inl (List.mem_cons_of_mem _ h2)
          · exact Or.inr h2
    · rw [blankRep_cons_ne ha] at h
      rcases List.mem_cons.1 h with h1 | h1
      · exact Or.inl (h1 ▸ List.mem_cons_self _ _)
      · rcases ih t hlt c h1 with h2 | h2
        · exact Or.inl (List.mem_cons_of_mem _ h2)
        · exact Or.inr h2

theorem blankRep_ne_nil {s : Str} (h : s ≠ []) : blankRep s ≠ [] := by
  cases s with
  | nil => exact absurd rfl h
  | cons c t =>
    by_cases hc : c = '\n'
    · subst hc
      by_cases hn : 2 ≤ (nlRun t).1
      · rw [blankRep_nl_ge hn]; simp
      · rw [blankRep_nl_lt (by omega)]; simp
    · rw [blankRep_cons_ne hc]; simp

/-- C3 (counterexample): `compressBlankLines` is not idempotent as claimed;
on `"\r\r\n"` the first pass only turns the trailing `\r\n` into `\n`
(leaving `"\r\n"`), and the second pass collapses that again to `"\n"`. -/
theorem compressBlankLines_not_idem :
    compressBlankLines (compressBlankLines ('\x0d' :: '\x0d' :: '\n' :: [])) ≠
      compressBlankLines ('\x0d' :: '\x0d' :: '\n' :: []) := by decide

/-- C3 (amended): `compressBlankLines` is idempotent on every string that
contains no carriage-return character (the counterexample `"\r\r\n"` forces
this restriction: a `\r` surviving the first `\r\n` pass can form a fresh
`\r\n` pair that the second pass rewrites). -/
theorem compressBlankLines_idem (s : Str) (h : '\x0d' ∉ s) :
    compressBlankLines (compressBlankLines s) = compressBlankLines s := by
  by_cases hs : s = []
  · subst hs; rfl
  · have e1 : compressBlankLines s = blankRep s := by
      simp only [compressBlankLines, if_neg hs, rnRep_id s h]
    have hcr : '\x0d' ∉ blankRep s := by
      intro hmem
      rcases mem_blankRep s _ hmem with h2 | h2
      · exact h h2
      · exact absurd h2 (by decide)
    rw [e1]
    simp only [compressBlankLines, if_neg (blankRep_ne_nil hs), rnRep_id _ hcr]
    exact blankRep_idem s

/-- Witness for C3 (amended) at a concrete carriage-return-free string. -/
theorem compressBlankLines_idem_wit :
    '\x0d' ∉ ("a\n\n\n\nb".data) ∧
    compressBlankLines (compressBlankLines ("a\n\n\n\nb".data)) =
      compressBlankLines ("a\n\n\n\nb".data) :=
  ⟨by decide, compressBlankLines_idem _ (by decide)⟩

/-! ## Helper lemmas for the no-triple-newline invariant -/

theorem munch_none_not_nl_head {X : Str} (h : munch X = none) : ∀ r, X ≠ '\n' :: r := by
  intro r he
  subst he
  rw [munch_cons_nl] at h
  exact absurd h (by simp)

theorem startsNlNl_eq_false {X : Str} (h : ∀ r, X ≠ '\n' :: r) : startsNlNl X = false := by
  rcases X with _ | ⟨a, _ | ⟨b, t⟩⟩
  · rfl
  · rfl
  · have ha : a ≠ '\n' := fun he => h (b :: t) (by rw [he])
    simp [startsNlNl, ha]

theorem startsNlNl_nl_cons {X : Str} (h : ∀ r, X ≠ '\n' :: r) :
    startsNlNl ('\n' :: X) = false := by
  rcases X with _ | ⟨x, xs⟩
  · rfl
  · have hx : x ≠ '\n' := fun he => h xs (by rw [he])
    simp [startsNlNl, hx]

theorem noTriple_blankRep : ∀ (s : Str), noTriple (blankRep s) = true := by
  refine list_length_induction _ ?_
  intro s ih
  cases s with
  | nil => rfl
  | cons c t =>
    have hlt : t.length < (c :: t).length := by simp
    by_cases hc : c = '\n'
    · subst hc
      by_cases hn : 2 ≤ (nlRun t).1
      · rw [blankRep_nl_ge hn]
        have hX : ∀ r, blankRep (nlRun t).2 ≠ '\n' :: r :=
          munch_none_not_nl_head (munch_blankRep_none _ (nlRun_stop t))
        have hlt2 : (nlRun t).2.length < ('\n' :: t).length := by
          have := nlRun_snd_length t
          simp only [List.length_cons]
          omega
        simp only [noTriple, startsNlNl_nl_cons hX, startsNlNl_eq_false hX,
          ih (nlRun t).2 hlt2, Bool.and_false, Bool.not_false, Bool.and_true,
          Bool.true_and]
      · rw [blankRep_nl_lt (by omega)]
        have hfalse : startsNlNl (blankRep t) = false := by
          cases hcount : (nlRun t).1 with
          | zero =>
            exact startsNlNl_eq_false
              (munch_none_not_nl_head
                (munch_blankRep_none t (munch_none_of_count_zero hcount)))
          | succ n =>
            have h1 : (nlRun t).1 = 1 := by omega
            obtain ⟨r, hmr, hmrn, -⟩ := nlRun_one h1
            have hw : ∀ c2 ∈ t.takeWhile isHT, isHT c2 = true :=
              fun _ hc2 => List.mem_takeWhile_imp hc2
            have hr0 : (nlRun r).1 < 2 := by
              rw [nlRun_eq_zero hmrn]
              omega
            have hbt : blankRep t = t.takeWhile isHT ++ '\n' :: blankRep r := by
              conv_lhs => rw [munch_some_decomp hmr]
              rw [blankRep_ht_front _ hw, blankRep_nl_lt hr0]
            rw [hbt]
            cases htw : t.takeWhile isHT with
            | nil =>
              rw [List.nil_append]
              exact startsNlNl_nl_cons
                (munch_none_not_nl_head (munch_blankRep_none r hmrn))
            | cons c2 tw2 =>
              have hc2 : c2 ≠ '\n' :=
                isHT_ne_nl (hw c2 (htw ▸ List.mem_cons_self _ _))
              rw [List.cons_append]
              exact startsNlNl_eq_false (fun r2 he => hc2 (List.cons.injEq _ _ _ _ ▸ he).1
                )
        simp only [noTriple, hfalse, ih t hlt, Bool.and_false, Bool.not_false,
          Bool.and_true, Bool.true_and]
    · rw [blankRep_cons_ne hc]
      simp only [noTriple, ih t hlt, Bool.and_true]
      simp [hc]

theorem prefix_two_nl {t : Str} (h : ('\n' :: '\n' :: []) <+: t) : startsNlNl t = true := by
  rcases t with _ | ⟨a, _ | ⟨b, t2⟩⟩
  · simpa using h.length_le
  · simpa using h.length_le
  · rw [List.cons_prefix_cons] at h
    obtain ⟨rfl, h2⟩ := h
    rw [List.cons_prefix_cons] at h2
    obtain ⟨rfl, -⟩ := h2
    simp [startsNlNl]

theorem noTriple_excludes : ∀ (l : Str), noTriple l = true →
    ¬ (('\n' :: '\n' :: '\n' :: []) <:+: l) := by
  intro l
  induction l with
  | nil =>
    intro _ h
    simp at h
  | cons c t ih =>
    intro h hinf
    simp only [noTriple, Bool.and_eq_true, Bool.not_eq_true'] at h
    rcases List.infix_cons_iff.1 hinf with h1 | h1
    · rw [List.cons_prefix_cons] at h1
      obtain ⟨rfl, h2⟩ := h1
      rw [prefix_two_nl h2] at h
      simp at h
    · exact ih h.2 h1

/-- C4: the output of `compressBlankLines` — and hence the rendered document
for any field values and template — never contains three consecutive
newline characters. -/
theorem compressBlankLines_no_triple :
    ∀ (s : Str) (f : Fields),
      ¬ (('\n' :: '\n' :: '\n' :: []) <:+: compressBlankLines s) ∧
      ¬ (('\n' :: '\n' :: '\n' :: []) <:+: rendered f) := by
  have key : ∀ s : Str, ¬ (('\n' :: '\n' :: '\n' :: []) <:+: compressBlankLines s) := by
    intro s
    by_cases hs : s = []
    · subst hs
      intro h
      simp [compressBlankLines] at h
    · simp only [compressBlankLines, if_neg hs]
      exact noTriple_excludes _ (noTriple_blankRep _)
  exact fun s f => ⟨key s, key _⟩

/-- Witness for C4 at a concrete input and concrete field values. -/
theorem compressBlankLines_no_triple_wit :
    ¬ (('\n' :: '\n' :: '\n' :: []) <:+:
        compressBlankLines ("a\n\n\n\n\nb".data)) ∧
    ¬ (('\n' :: '\n' :: '\n' :: []) <:+:
        rendered ⟨"2026-02-11".data, "ABC Corp".data, [], [],
          "Clerk".data, "x\n\n\n\n\x7b\x7bposition\x7d\x7d".data⟩) :=
  compressBlankLines_no_triple ("a\n\n\n\n\nb".data) _

/-! ## Helper lemmas for `applyTemplate` -/

theorem jsSpace_cases {c : Char} (h : isJsSpace c = true) :
    c = ' ' ∨ c = '\t' ∨ c = '\n' ∨ c = '\x0d' ∨ c = '\x0b' ∨ c = '\x0c' := by
  simpa [isJsSpace, or_assoc] using h

theorem ident_not_ws {c : Char} (h : isIdentChar c = true) : isJsSpace c = false := by
  cases hw : isJsSpace c with
  | false => rfl
  | true =>
    rcases jsSpace_cases hw with h1 | h1 | h1 | h1 | h1 | h1 <;>
      (subst h1; exact absurd h (by decide))

theorem ws_not_ident {c : Char} (h : isJsSpace c = true) : isIdentChar c = false := by
  rcases jsSpace_cases h with h1 | h1 | h1 | h1 | h1 | h1 <;> (subst h1; decide)

theorem ws_ne_lbrace {c : Char} (h : isJsSpace c = true) : c ≠ '\x7b' := by
  rcases jsSpace_cases h with h1 | h1 | h1 | h1 | h1 | h1 <;> (subst h1; decide)

theorem ident_ne_lbrace {c : Char} (h : isIdentChar c = true) : c ≠ '\x7b' := by
  intro he
  subst he
  exact absurd h (by decide)

theorem takeWhile_append_all {α : Type} (p : α → Bool) :
    ∀ (a b : List α), (∀ c ∈ a, p c = true) →
      (a ++ b).takeWhile p = a ++ b.takeWhile p := by
  intro a
  induction a with
  | nil => intro b _; rfl
  | cons x a2 ih =>
    intro b h
    rw [List.cons_append, List.takeWhile_cons, if_pos (h x (List.mem_cons_self _ _)),
      ih b (fun c hc => h c (List.mem_cons_of_mem _ hc)), List.cons_append]

theorem dropWhile_append_all {α : Type} (p : α → Bool) :
    ∀ (a b : List α), (∀ c ∈ a, p c = true) →
      (a ++ b).dropWhile p = b.dropWhile p := by
  intro a
  induction a with
  | nil => intro b _; rfl
  | cons x a2 ih =>
    intro b h
    rw [List.cons_append, List.dropWhile_cons, if_pos (h x (List.mem_cons_self _ _)),
      ih b (fun c hc => h c (List.mem_cons_of_mem _ hc))]

theorem takeWhile_head_stop {α : Type} (p : α → Bool) (X : List α)
    (h : ∀ c t, X = c :: t → p c = false) : X.takeWhile p = [] := by
  cases X with
  | nil => rfl
  | cons c t => rw [List.takeWhile_cons, if_neg (by simp [h c t rfl])]

theorem dropWhile_head_stop {α : Type} (p : α → Bool) (X : List α)
    (h : ∀ c t, X = c :: t → p c = false) : X.dropWhile p = X := by
  cases X with
  | nil => rfl
  | cons c t => rw [List.dropWhile_cons, if_neg (by simp [h c t rfl])]

/-- A token-shaped string matches the placeholder pattern and captures
exactly the identifier between the brace pairs. -/
theorem matchPlaceholder_token {w1 key w2 rest : Str}
    (hw1 : ∀ c ∈ w1, isJsSpace c = true) (hw2 : ∀ c ∈ w2, isJsSpace c = true)
    (hkey : key ≠ []) (hident : ∀ c ∈ key, isIdentChar c = true) :
    matchPlaceholder (w1 ++ key ++ w2 ++ '\x7d' :: '\x7d' :: rest) = some (key, rest) := by
  have hstop_ident : ∀ (c : Char) (t : Str),
      w2 ++ '\x7d' :: '\x7d' :: rest = c :: t → isIdentChar c = false := by
    intro c t he
    cases w2 with
    | nil =>
      rw [List.nil_append] at he
      injection he with h1 _
      rw [← h1]
      decide
    | cons v0 vt =>
      rw [List.cons_append] at he
      injection he with h1 _
      rw [← h1]
      exact ws_not_ident (hw2 v0 (List.mem_cons_self _ _))
  have hstop_ws2 : ∀ (c : Char) (t : Str),
      ('\x7d' :: '\x7d' :: rest : Str) = c :: t → isJsSpace c = false := by
    intro c t he
    injection he with h1 _
    rw [← h1]
    decide
  have hkeystop : ∀ (b : Str), (key ++ b).dropWhile isJsSpace = key ++ b := by
    intro b
    cases key with
    | nil => exact absurd rfl hkey
    | cons k0 ktl =>
      rw [List.cons_append]
      apply dropWhile_head_stop
      intro c t he
      injection he with h1 _
      rw [← h1]
      exact ident_not_ws (hident k0 (List.mem_cons_self _ _))
  have e1 : (w1 ++ key ++ w2 ++ '\x7d' :: '\x7d' :: rest).dropWhile isJsSpace =
      key ++ w2 ++ '\x7d' :: '\x7d' :: rest := by
    simp only [List.append_assoc]
    rw [dropWhile_append_all _ _ _ hw1, hkeystop]
  have e2 : (key ++ w2 ++ '\x7d' :: '\x7d' :: rest).takeWhile isIdentChar = key := by
    simp only [List.append_assoc]
    rw [takeWhile_append_all _ _ _ hident, takeWhile_head_stop _ _ hstop_ident,
      List.append_nil]
  have e3 : (key ++ w2 ++ '\x7d' :: '\x7d' :: rest).dropWhile isIdentChar =
      w2 ++ '\x7d' :: '\x7d' :: rest := by
    simp only [List.append_assoc]
    rw [dropWhile_append_all _ _ _ hident, dropWhile_head_stop _ _ hstop_ident]
  have e4 : (w2 ++ '\x7d' :: '\x7d' :: rest).dropWhile isJsSpace =
      '\x7d' :: '\x7d' :: rest := by
    rw [dropWhile_append_all _ _ _ hw2, dropWhile_head_stop _ _ hstop_ws2]
  simp only [matchPlaceholder, e1, e2, e3, e4, if_neg hkey]

/-- A successful placeholder match decomposes the string into whitespace,
identifier, whitespace, the closing braces, and the rest. -/
theorem matchPlaceholder_some_decomp {s k r : Str} (h : matchPlaceholder s = some (k, r)) :
    ∃ w1 w2, s = w1 ++ k ++ w2 ++ '\x7d' :: '\x7d' :: r ∧
      (∀ c ∈ w1, isJsSpace c = true) ∧ (∀ c ∈ w2, isJsSpace c = true) ∧
      k ≠ [] ∧ (∀ c ∈ k, isIdentChar c = true) := by
  simp only [matchPlaceholder] at h
  split at h
  · exact absurd h (by simp)
  · rename_i hkey
    split at h
    · rename_i r2 heq
      injection h with h1
      rw [Prod.mk.injEq] at h1
      obtain ⟨hk, hr⟩ := h1
      subst hr
      refine ⟨s.takeWhile isJsSpace,
        ((s.dropWhile isJsSpace).dropWhile isIdentChar).takeWhile isJsSpace,
        ?_, fun c hc => List.mem_takeWhile_imp hc, fun c hc => List.mem_takeWhile_imp hc,
        ?_, ?_⟩
      · conv_lhs => rw [← List.takeWhile_append_dropWhile isJsSpace s]
        conv_lhs =>
          rw [← List.takeWhile_append_dropWhile isIdentChar (s.dropWhile isJsSpace)]
        conv_lhs =>
          rw [← List.takeWhile_append_dropWhile isJsSpace
            ((s.dropWhile isJsSpace).dropWhile isIdentChar)]
        rw [heq, hk]
        simp [List.append_assoc]
      · rw [← hk]; exact hkey
      · rw [← hk]; exact fun c hc => List.mem_takeWhile_imp hc
    · exact absurd h (by simp)

theorem matchPlaceholder_some_length {s k r : Str} (h : matchPlaceholder s = some (k, r)) :
    r.length < s.length := by
  obtain ⟨w1, w2, he, -, -, hk, -⟩ := matchPlaceholder_some_decomp h
  have : s.length = w1.length + (k.length + (w2.length + (r.length + 2))) := by
    rw [he]; simp [List.length_append]
  have hk1 : 1 ≤ k.length := by
    cases k with
    | nil => exact absurd rfl hk
    | cons a b => simp
  omega

theorem applyTemplateAuxF_congr : ∀ (s : Str) (v : Str → JsVal) (f1 f2 : ℕ),
    s.length ≤ f1 → s.length ≤ f2 →
    applyTemplateAuxF v f1 s = applyTemplateAuxF v f2 s := by
  refine list_length_induction _ ?_
  intro s ih v f1 f2 h1 h2
  rcases s with _ | ⟨c, _ | ⟨d, t⟩⟩
  · cases f1 <;> cases f2 <;> rfl
  · simp only [List.length_cons, List.length_nil] at h1 h2
    cases f1 with
    | zero => omega
    | succ g1 =>
      cases f2 with
      | zero => omega
      | succ g2 => rfl
  · simp only [List.length_cons] at h1 h2
    cases f1 with
    | zero => omega
    | succ g1 =>
      cases f2 with
      | zero => omega
      | succ g2 =>
        simp only [applyTemplateAuxF]
        by_cases hcd : c = '\x7b' ∧ d = '\x7b'
        · rw [if_pos hcd, if_pos hcd]
          cases hm : matchPlaceholder t with
          | some p =>
            obtain ⟨k, rest⟩ := p
            simp only [hm]
            have hrl : rest.length < t.length := matchPlaceholder_some_length hm
            rw [ih rest (by simp only [List.length_cons]; omega) v g1 g2
              (by omega) (by omega)]
          | none =>
            simp only [hm]
            rw [ih (d :: t) (by simp) v g1 g2
              (by simp only [List.length_cons]; omega)
              (by simp only [List.length_cons]; omega)]
        · rw [if_neg hcd, if_neg hcd]
          rw [ih (d :: t) (by simp) v g1 g2
            (by simp only [List.length_cons]; omega)
            (by simp only [List.length_cons]; omega)]

/-- Substituting one placeholder token: the matched token is replaced by the
looked-up value (inserted verbatim) and scanning continues after the token. -/
theorem applyTemplate_token (v : Str → JsVal) (w1 key w2 rest : Str)
    (hw1 : ∀ c ∈ w1, isJsSpace c = true) (hw2 : ∀ c ∈ w2, isJsSpace c = true)
    (hkey : key ≠ []) (hident : ∀ c ∈ key, isIdentChar c = true) :
    applyTemplate ('\x7b' :: '\x7b' :: (w1 ++ key ++ w2 ++ '\x7d' :: '\x7d' :: rest)) v =
      jsStrOrEmpty (v key) ++ applyTemplate rest v := by
  unfold applyTemplate
  simp only [List.length_cons, applyTemplateAuxF, and_self, if_true,
    matchPlaceholder_token hw1 hw2 hkey hident]
  congr 1
  apply applyTemplateAuxF_congr
  · have : rest.length <
        (w1 ++ key ++ w2 ++ '\x7d' :: '\x7d' :: rest).length + 1 := by
      simp [List.length_append]
      omega
    omega
  · exact le_rfl

theorem applyTemplateAuxF_untouched : ∀ (tpl : Str) (v : Str → JsVal) (fuel : ℕ),
    tpl.length ≤ fuel →
    (∀ l r, tpl = l ++ '\x7b' :: '\x7b' :: r → matchPlaceholder r = none) →
    applyTemplateAuxF v fuel tpl = tpl := by
  refine list_length_induction _ ?_
  intro tpl ih v fuel h1 hnm
  rcases tpl with _ | ⟨c, _ | ⟨d, t⟩⟩
  · cases fuel <;> rfl
  · simp only [List.length_cons, List.length_nil] at h1
    cases fuel with
    | zero => omega
    | succ g => rfl
  · simp only [List.length_cons] at h1
    cases fuel with
    | zero => omega
    | succ g =>
      simp only [applyTemplateAuxF]
      have htrans : ∀ (l r : Str), d :: t = l ++ '\x7b' :: '\x7b' :: r →
          matchPlaceholder r = none :=
        fun l r he => hnm (c :: l) r (by rw [List.cons_append, he])
      by_cases hcd : c = '\x7b' ∧ d = '\x7b'
      · have hm : matchPlaceholder t = none := by
          obtain ⟨rfl, rfl⟩ := hcd
          exact hnm [] t rfl
        rw [if_pos hcd]
        simp only [hm]
        rw [ih (d :: t) (by simp) v g (by simp only [List.length_cons]; omega) htrans,
          hcd.1]
      · rw [if_neg hcd]
        rw [ih (d :: t) (by simp) v g (by simp only [List.length_cons]; omega) htrans]

/-- A template in which no position matches the placeholder pattern is left
entirely untouched. -/
theorem applyTemplate_untouched (v : Str → JsVal) (tpl : Str)
    (hnm : ∀ l r, tpl = l ++ '\x7b' :: '\x7b' :: r → matchPlaceholder r = none) :
    applyTemplate tpl v = tpl :=
  applyTemplateAuxF_untouched tpl v tpl.length le_rfl hnm

/-- If the all-positions token scan finds no token, then no decomposition at
a double brace matches the placeholder pattern. -/
theorem tokenKeysAt_nil_no_match : ∀ (l r : Str),
    tokenKeysAt (l ++ '\x7b' :: '\x7b' :: r) = [] → matchPlaceholder r = none := by
  intro l
  induction l with
  | nil =>
    intro r h
    rw [List.nil_append] at h
    simp only [tokenKeysAt, and_self, if_true, List.append_eq_nil] at h
    cases hm : matchPlaceholder r with
    | none => rfl
    | some p =>
      obtain ⟨k, rest⟩ := p
      rw [hm] at h
      simp at h
  | cons c l2 ih =>
    intro r h
    rw [List.cons_append] at h
    rcases hx : l2 ++ '\x7b' :: '\x7b' :: r with _ | ⟨x0, xs⟩
    · cases l2 <;> simp at hx
    · rw [hx] at h
      simp only [tokenKeysAt, List.append_eq_nil] at h
      exact ih r (by rw [hx]; exact h.2)

/-- C5: `applyTemplate` replaces every double-brace token (whitespace inside
the braces tolerated, the key a nonempty identifier) with the looked-up
value, substitutes the empty string — never literal `undefined`/`null`
text — when the key is absent or its value is null/undefined, and leaves
double-brace text that does not match the pattern untouched. -/
theorem applyTemplate_spec :
    (∀ (v : Str → JsVal) (w1 key w2 rest : Str),
      (∀ c ∈ w1, isJsSpace c = true) → (∀ c ∈ w2, isJsSpace c = true) →
      key ≠ [] → (∀ c ∈ key, isIdentChar c = true) →
      applyTemplate ('\x7b' :: '\x7b' :: (w1 ++ key ++ w2 ++ '\x7d' :: '\x7d' :: rest)) v =
        jsStrOrEmpty (v key) ++ applyTemplate rest v) ∧
    jsStrOrEmpty JsVal.absent = [] ∧ jsStrOrEmpty JsVal.jsNull = [] ∧
    (∀ (v : Str → JsVal) (tpl : Str), tokenKeysAt tpl = [] →
      applyTemplate tpl v = tpl) :=
  ⟨fun v w1 key w2 rest hw1 hw2 hkey hident =>
      applyTemplate_token v w1 key w2 rest hw1 hw2 hkey hident,
    rfl, rfl,
    fun v tpl h =>
      applyTemplate_untouched v tpl
        (fun l r he => tokenKeysAt_nil_no_match l r (he ▸ h))⟩

/-- Witness for C5: a concrete template with one whitespace-padded token, a
value map defining that key, and a concrete untouched non-token template. -/
theorem applyTemplate_spec_wit :
    applyTemplate ("\x7b\x7b date \x7d\x7d!".data)
        (fun k => if k = "date".data then JsVal.jsStr ("X".data) else JsVal.absent) =
      "X!".data ∧
    applyTemplate ("a \x7b\x7b \x7d\x7d b".data)
        (fun k => if k = "date".data then JsVal.jsStr ("X".data) else JsVal.absent) =
      "a \x7b\x7b \x7d\x7d b".data := by
  constructor
  · have h := applyTemplate_spec.1
      (fun k => if k = "date".data then JsVal.jsStr ("X".data) else JsVal.absent)
      ([' ']) ("date".data) ([' ']) ("!".data)
      (by decide) (by decide) (by decide) (by decide)
    rw [show ("\x7b\x7b date \x7d\x7d!".data) =
      '\x7b' :: '\x7b' :: ([' '] ++ "date".data ++ [' '] ++ '\x7d' :: '\x7d' :: "!".data)
      from by decide]
    rw [h]
    decide
  · exact applyTemplate_spec.2.2.2 _ _ (by decide)

/-- C10: `applyTemplate` substitutes in a single pass: a substituted value is
emitted verbatim (the scan continues after the token, never inside the
replacement), so placeholder-shaped text contained in a value appears
verbatim in the output and is not itself substituted even when its key is
defined — substituting `date ↦ "{{position}}"` with `position` defined
leaves `"{{position}}"` in the output. -/
theorem applyTemplate_single_pass :
    (∀ (v : Str → JsVal) (w1 key w2 rest : Str),
      (∀ c ∈ w1, isJsSpace c = true) → (∀ c ∈ w2, isJsSpace c = true) →
      key ≠ [] → (∀ c ∈ key, isIdentChar c = true) →
      applyTemplate ('\x7b' :: '\x7b' :: (w1 ++ key ++ w2 ++ '\x7d' :: '\x7d' :: rest)) v =
        jsStrOrEmpty (v key) ++ applyTemplate rest v) ∧
    applyTemplate ("\x7b\x7bdate\x7d\x7d".data)
        (fun k => if k = "date".data then JsVal.jsStr ("\x7b\x7bposition\x7d\x7d".data)
          else if k = "position".data then JsVal.jsStr ("X".data) else JsVal.absent) =
      "\x7b\x7bposition\x7d\x7d".data :=
  ⟨fun v w1 key w2 rest hw1 hw2 hkey hident =>
      applyTemplate_token v w1 key w2 rest hw1 hw2 hkey hident,
    by decide⟩

/-- Witness for C10 at a concrete token and value map containing a
placeholder-shaped value. -/
theorem applyTemplate_single_pass_wit :
    applyTemplate ("\x7b\x7bdate\x7d\x7d rest".data)
        (fun k => if k = "date".data then JsVal.jsStr ("\x7b\x7bposition\x7d\x7d".data)
          else if k = "position".data then JsVal.jsStr ("X".data) else JsVal.absent) =
      "\x7b\x7bposition\x7d\x7d rest".data := by
  have h := applyTemplate_single_pass.1
    (fun k => if k = "date".data then JsVal.jsStr ("\x7b\x7bposition\x7d\x7d".data)
      else if k = "position".data then JsVal.jsStr ("X".data) else JsVal.absent)
    [] ("date".data) [] (" rest".data)
    (by decide) (by decide) (by decide) (by decide)
  rw [show ("\x7b\x7bdate\x7d\x7d rest".data) =
    '\x7b' :: '\x7b' :: ([] ++ "date".data ++ [] ++ '\x7d' :: '\x7d' :: " rest".data)
    from by decide]
  rw [h]
  decide

/-- C6 (counterexample): the template `"{{x{{a}}y}}"` contains only the
recognized placeholder `a` (its outer double braces match nothing), yet
substituting `a ↦ ""` produces the output `"{{xy}}"` — a leftover token
whose key `xy` exists in the values map. -/
theorem applyTemplate_totality_cex :
    tokenKeysAt ("\x7b\x7bx\x7b\x7ba\x7d\x7dy\x7d\x7d".data) = [('a' :: [])] ∧
    JsVal.isPresent ((fun k => if k = ('x' :: 'y' :: []) then JsVal.jsStr ('q' :: [])
      else if k = ('a' :: []) then JsVal.jsStr [] else JsVal.absent) ('a' :: [])) = true ∧
    applyTemplate ("\x7b\x7bx\x7b\x7ba\x7d\x7dy\x7d\x7d".data)
      (fun k => if k = ('x' :: 'y' :: []) then JsVal.jsStr ('q' :: [])
        else if k = ('a' :: []) then JsVal.jsStr [] else JsVal.absent) =
      "\x7b\x7bxy\x7d\x7d".data ∧
    tokenKeysAt ("\x7b\x7bxy\x7d\x7d".data) = [('x' :: 'y' :: [])] ∧
    JsVal.isPresent ((fun k => if k = ('x' :: 'y' :: []) then JsVal.jsStr ('q' :: [])
      else if k = ('a' :: []) then JsVal.jsStr [] else JsVal.absent)
      ('x' :: 'y' :: [])) = true := by
  decide

theorem wellFormedTemplate_cons2 (v : Str → JsVal) (c d : Char) (t : Str) :
    wellFormedTemplate v (c :: d :: t) =
      ((if c = '\x7b' ∧ d = '\x7b' then
        (match matchPlaceholder t with
         | some (k, _) => (v k).isPresent
         | none => false)
      else true) && wellFormedTemplate v (d :: t)) := rfl

theorem wellFormed_append_no_lbrace (v : Str → JsVal) :
    ∀ (p : Str), (∀ c ∈ p, c ≠ '\x7b') → ∀ (X : Str),
      wellFormedTemplate v (p ++ X) = wellFormedTemplate v X := by
  intro p
  induction p with
  | nil => intro _ X; rfl
  | cons c p2 ih =>
    intro hp X
    have hc : c ≠ '\x7b' := hp c (List.mem_cons_self _ _)
    have hp2 : ∀ d ∈ p2, d ≠ '\x7b' := fun d hd => hp d (List.mem_cons_of_mem _ hd)
    rw [List.cons_append]
    rcases hx : p2 ++ X with _ | ⟨x0, xs⟩
    · obtain ⟨rfl, rfl⟩ := List.append_eq_nil.1 hx
      rfl
    · rw [wellFormedTemplate_cons2, if_neg (fun hand => hc hand.1), Bool.true_and,
        ← hx, ih hp2 X]

theorem noDoubleBrace_append {a b : Str} (ha : ∀ c ∈ a, c ≠ '\x7b')
    (hb : noDoubleBrace b = true) : noDoubleBrace (a ++ b) = true := by
  induction a with
  | nil => exact hb
  | cons c a2 ih =>
    rw [List.cons_append]
    simp only [noDoubleBrace, Bool.and_eq_true]
    refine ⟨?_, ih (fun d hd => ha d (List.mem_cons_of_mem _ hd))⟩
    simp [ha c (List.mem_cons_self _ _)]

theorem braceFree_chars {s : Str} (h : braceFree s = true) :
    ∀ c ∈ s, c ≠ '\x7b' := by
  intro c hc he
  subst he
  simp only [braceFree, List.all_eq_true] at h
  have := h _ hc
  simp at this

theorem tokenKeysAt_nil_of_noDouble : ∀ (s : Str), noDoubleBrace s = true →
    tokenKeysAt s = [] := by
  intro s
  induction s with
  | nil => intro _; rfl
  | cons c t ih =>
    intro h
    simp only [noDoubleBrace, Bool.and_eq_true, Bool.not_eq_true'] at h
    rcases t with _ | ⟨d, t2⟩
    · rfl
    · simp only [tokenKeysAt, List.append_eq_nil]
      have hknd : noDoubleBrace (d :: t2) = true := h.2
      refine ⟨?_, ih hknd⟩
      by_cases hcd : c = '\x7b' ∧ d = '\x7b'
      · exfalso
        have hsb : startsBrace (d :: t2) = true := by simp [startsBrace, hcd.2]
        rw [hcd.1, hsb] at h
        simp at h
      · rw [if_neg hcd]

theorem noDoubleBrace_cons (c : Char) (t : Str) :
    noDoubleBrace (c :: t) = (!(c = '\x7b' && startsBrace t) && noDoubleBrace t) := rfl

theorem applyTemplateAuxF_cons2 (v : Str → JsVal) (fuel : ℕ) (c d : Char) (t : Str) :
    applyTemplateAuxF v (fuel + 1) (c :: d :: t) =
      (if c = '\x7b' ∧ d = '\x7b' then
        (match matchPlaceholder t with
         | some (k, rest) => jsStrOrEmpty (v k) ++ applyTemplateAuxF v fuel rest
         | none => '\x7b' :: applyTemplateAuxF v fuel (d :: t))
      else c :: applyTemplateAuxF v fuel (d :: t)) := rfl

theorem applyTemplateAuxF_noDouble : ∀ (tpl : Str) (v : Str → JsVal) (fuel : ℕ),
    tpl.length ≤ fuel → wellFormedTemplate v tpl = true →
    (∀ k, braceFree (jsStrOrEmpty (v k)) = true) →
    noDoubleBrace (applyTemplateAuxF v fuel tpl) = true ∧
    (startsBrace (applyTemplateAuxF v fuel tpl) = true → startsBrace tpl = true) := by
  refine list_length_induction _ ?_
  intro tpl ih v fuel h1 hwf hbf
  rcases tpl with _ | ⟨c, _ | ⟨d, t⟩⟩
  · cases fuel with
    | zero => exact ⟨rfl, fun h => h⟩
    | succ g => exact ⟨rfl, fun h => h⟩
  · simp only [List.length_cons, List.length_nil] at h1
    cases fuel with
    | zero => omega
    | succ g =>
      refine ⟨?_, fun h => h⟩
      simp [noDoubleBrace, startsBrace]
  · simp only [List.length_cons] at h1
    cases fuel with
    | zero => omega
    | succ g =>
      rw [applyTemplateAuxF_cons2]
      have hwf2 : wellFormedTemplate v (d :: t) = true := by
        rw [wellFormedTemplate_cons2, Bool.and_eq_true] at hwf
        exact hwf.2
      by_cases hcd : c = '\x7b' ∧ d = '\x7b'
      · rw [if_pos hcd]
        cases hm : matchPlaceholder t with
        | none =>
          exfalso
          rw [wellFormedTemplate_cons2, Bool.and_eq_true, if_pos hcd, hm] at hwf
          exact absurd hwf.1 (by simp)
        | some p =>
          obtain ⟨k, rest⟩ := p
          simp only [hm]
          obtain ⟨w1, w2, hdec, hw1, hw2, hk, hkid⟩ := matchPlaceholder_some_decomp hm
          obtain ⟨x0, xs, hts, hx0⟩ : ∃ x0 xs, t = x0 :: xs ∧ x0 ≠ '\x7b' := by
            rcases w1 with _ | ⟨a0, w1t⟩
            · rcases k with _ | ⟨k0, kt⟩
              · exact absurd rfl hk
              · simp only [List.nil_append, List.cons_append] at hdec
                exact ⟨k0, _, hdec, ident_ne_lbrace (hkid k0 (List.mem_cons_self _ _))⟩
            · simp only [List.cons_append] at hdec
              exact ⟨a0, _, hdec, ws_ne_lbrace (hw1 a0 (List.mem_cons_self _ _))⟩
          have hwfrest : wellFormedTemplate v rest = true := by
            rw [hcd.2] at hwf2
            rw [hts, wellFormedTemplate_cons2, if_neg (fun hand => hx0 hand.2),
              Bool.true_and, ← hts] at hwf2
            rw [hdec] at hwf2
            simp only [List.append_assoc] at hwf2
            rw [wellFormed_append_no_lbrace v w1 (fun c2 hc2 => ws_ne_lbrace (hw1 c2 hc2)),
              wellFormed_append_no_lbrace v k (fun c2 hc2 => ident_ne_lbrace (hkid c2 hc2)),
              wellFormed_append_no_lbrace v w2 (fun c2 hc2 => ws_ne_lbrace (hw2 c2 hc2))]
              at hwf2
            rw [show ('\x7d' :: '\x7d' :: rest : Str) = ('\x7d' :: '\x7d' :: []) ++ rest
              from rfl] at hwf2
            rw [wellFormed_append_no_lbrace v ('\x7d' :: '\x7d' :: [])
              (by decide) rest] at hwf2
            exact hwf2
          have hrl : rest.length < t.length := matchPlaceholder_some_length hm
          have ihrest := ih rest (by simp only [List.length_cons]; omega) v g
            (by omega) hwfrest hbf
          refine ⟨noDoubleBrace_append (braceFree_chars (hbf k)) ihrest.1, ?_⟩
          intro _
          simp [startsBrace, hcd.1]
      · rw [if_neg hcd]
        have ihdt := ih (d :: t) (by simp) v g
          (by simp only [List.length_cons]; omega) hwf2 hbf
        refine ⟨?_, fun h => h⟩
        rw [noDoubleBrace_cons]
        cases hsb : startsBrace (applyTemplateAuxF v g (d :: t)) with
        | false => simp [hsb, ihdt.1]
        | true =>
          have hdb := ihdt.2 hsb
          simp only [startsBrace, decide_eq_true_eq] at hdb
          have hcne : c ≠ '\x7b' := fun hcme => hcd ⟨hcme, hdb⟩
          simp [hsb, hcne, ihdt.1]

/-- C6 (amended): when every double-brace occurrence in the template begins
a placeholder token whose key is present in the values map, and no
substituted value contains a brace character, the output of `applyTemplate`
contains no placeholder token at all — in particular none whose key exists
in the map. -/
theorem applyTemplate_no_tokens (v : Str → JsVal) (tpl : Str)
    (h1 : wellFormedTemplate v tpl = true)
    (h2 : ∀ k, braceFree (jsStrOrEmpty (v k)) = true) :
    tokenKeysAt (applyTemplate tpl v) = [] :=
  tokenKeysAt_nil_of_noDouble _
    (applyTemplateAuxF_noDouble tpl v tpl.length le_rfl h1 h2).1

/-- Witness for C6 (amended) at a concrete well-formed template and
brace-free values. -/
theorem applyTemplate_no_tokens_wit :
    wellFormedTemplate
      (fun k => if k = "name".data then JsVal.jsStr ("Ann".data) else JsVal.absent)
      ("Dear \x7b\x7bname\x7d\x7d!".data) = true ∧
    tokenKeysAt (applyTemplate ("Dear \x7b\x7bname\x7d\x7d!".data)
      (fun k => if k = "name".data then JsVal.jsStr ("Ann".data) else JsVal.absent)) =
      [] :=
  ⟨by decide,
    applyTemplate_no_tokens _ _ (by decide)
      (by
        intro k
        by_cases hk : k = "name".data
        · rw [hk]
          decide
        · simp only [hk, if_false]
          rfl)⟩

/-! ## Width bound of the greedy wrap (C1) -/

section WrapWidth

variable {W : Type} [LinearOrder W]

theorem charPack_fold_inv (measure : Str → W) (maxW : W) :
    ∀ (word : Str) (st : List Str × Str),
      (∀ s ∈ st.1, measure s ≤ maxW ∨ s.length ≤ 1) →
      (measure st.2 ≤ maxW ∨ st.2.length ≤ 1) →
      (∀ s ∈ (word.foldl (charStep measure maxW) st).1,
          measure s ≤ maxW ∨ s.length ≤ 1) ∧
        (measure (word.foldl (charStep measure maxW) st).2 ≤ maxW ∨
          (word.foldl (charStep measure maxW) st).2.length ≤ 1) := by
  intro word
  induction word with
  | nil => intro st h1 h2; exact ⟨h1, h2⟩
  | cons ch w2 ih =>
    intro st h1 h2
    rw [List.foldl_cons]
    apply ih
    · intro s hs
      simp only [charStep] at hs
      by_cases hc : measure (st.2 ++ [ch]) ≤ maxW
      · rw [if_pos hc] at hs
        exact h1 s hs
      · rw [if_neg hc] at hs
        rcases List.mem_append.1 hs with h3 | h3
        · exact h1 s h3
        · rw [List.mem_singleton.1 h3]
          exact h2
    · simp only [charStep]
      by_cases hc : measure (st.2 ++ [ch]) ≤ maxW
      · rw [if_pos hc]
        exact Or.inl hc
      · rw [if_neg hc]
        exact Or.inr (by simp)

theorem wrapStep_inv (measure : Str → W) (maxW : W) (st : List Str × Str) (word : Str)
    (h1 : ∀ s ∈ st.1, measure s ≤ maxW ∨ s.length ≤ 1)
    (h2 : measure st.2 ≤ maxW ∨ st.2.length ≤ 1) :
    (∀ s ∈ (wrapStep measure maxW st word).1, measure s ≤ maxW ∨ s.length ≤ 1) ∧
      (measure (wrapStep measure maxW st word).2 ≤ maxW ∨
        (wrapStep measure maxW st word).2.length ≤ 1) := by
  simp only [wrapStep]
  by_cases hc : measure (if st.2 = [] then word else st.2 ++ ' ' :: word) ≤ maxW
  · rw [if_pos hc]
    exact ⟨h1, Or.inl hc⟩
  · rw [if_neg hc]
    have hls1 : ∀ s ∈ (if st.2 = [] then st.1 else st.1 ++ [st.2]),
        measure s ≤ maxW ∨ s.length ≤ 1 := by
      by_cases he : st.2 = []
      · rw [if_pos he]; exact h1
      · rw [if_neg he]
        intro s hs
        rcases List.mem_append.1 hs with h3 | h3
        · exact h1 s h3
        · rw [List.mem_singleton.1 h3]
          exact h2
    by_cases hw : maxW < measure word
    · rw [if_pos hw]
      have hp := charPack_fold_inv measure maxW word ([], [])
        (by intro s hs; simp at hs) (Or.inr (by simp))
      refine ⟨?_, hp.2⟩
      intro s hs
      rcases List.mem_append.1 hs with h3 | h3
      · exact hls1 s h3
      · exact hp.1 s h3
    · rw [if_neg hw]
      exact ⟨hls1, Or.inl (le_of_not_lt hw)⟩

/-- C1 (amended): every line produced by the greedy wrap measures within
`maxWidth`, except possibly lines of at most one character (a single
character wider than the page produced by the character-level fallback, or
the empty line marker) — an unbreakable word wider than `maxWidth` is split
by the character fallback rather than kept on a line of its own. -/
theorem wrapLine_width (measure : Str → W) (maxW : W) (line : Str) :
    ∀ s ∈ wrapLine measure maxW line, measure s ≤ maxW ∨ s.length ≤ 1 := by
  intro s hs
  simp only [wrapLine] at hs
  by_cases hb : jsTrim line = []
  · rw [if_pos hb] at hs
    rw [List.mem_singleton.1 hs]
    exact Or.inr (by simp)
  · rw [if_neg hb] at hs
    have key : ∀ (ws : List Str) (st : List Str × Str),
        (∀ s2 ∈ st.1, measure s2 ≤ maxW ∨ s2.length ≤ 1) →
        (measure st.2 ≤ maxW ∨ st.2.length ≤ 1) →
        (∀ s2 ∈ (ws.foldl (wrapStep measure maxW) st).1,
            measure s2 ≤ maxW ∨ s2.length ≤ 1) ∧
          (measure (ws.foldl (wrapStep measure maxW) st).2 ≤ maxW ∨
            (ws.foldl (wrapStep measure maxW) st).2.length ≤ 1) := by
      intro ws
      induction ws with
      | nil => intro st h1 h2; exact ⟨h1, h2⟩
      | cons w ws2 ih =>
        intro st h1 h2
        rw [List.foldl_cons]
        have hst := wrapStep_inv measure maxW st w h1 h2
        exact ih _ hst.1 hst.2
    have hk := key (splitWs line) ([], [])
      (by intro s2 hs2; simp at hs2) (Or.inr (by simp))
    by_cases he : ((splitWs line).foldl (wrapStep measure maxW) ([], [])).2 = []
    · rw [if_pos he] at hs
      exact hk.1 s hs
    · rw [if_neg he] at hs
      rcases List.mem_append.1 hs with h3 | h3
      · exact hk.1 s h3
      · rw [List.mem_singleton.1 h3]
        exact hk.2

end WrapWidth

/-- C1 (counterexample): with `measure` the length and `maxWidth` zero, the
input line `"ab"` wraps to `["", "a", "b"]`; the output `"a"` exceeds the
width but is not a word of the line on a line of its own (the oversized
word `"ab"` was split by the character fallback). -/
theorem wrapLine_width_cex :
    ('a' :: []) ∈ wrapLine (List.length) 0 ('a' :: 'b' :: []) ∧
    ¬ (List.length ('a' :: []) ≤ 0) ∧
    ('a' :: []) ∉ splitWs ('a' :: 'b' :: []) := by decide

/-- Witness for C1 (amended) at a concrete measure, width and line. -/
theorem wrapLine_width_wit :
    ("hello".data) ∈ wrapLine (List.length) 10 ("hello world".data) ∧
    (List.length ("hello".data) ≤ 10 ∨ ("hello".data).length ≤ 1) :=
  ⟨by decide, wrapLine_width (List.length) 10 ("hello world".data) _ (by decide)⟩

/-! ## Reconstruction property of the greedy wrap (C2) -/

theorem wordsAux_space_free : ∀ (w : Str), (∀ c ∈ w, isJsSpace c = false) →
    ∀ (acc : Str), wordsAux w acc = emitW (w.reverse ++ acc) := by
  intro w
  induction w with
  | nil => intro _ acc; simp [wordsAux]
  | cons c w2 ih =>
    intro hw acc
    have hc : isJsSpace c = false := hw c (List.mem_cons_self _ _)
    simp only [wordsAux, hc, Bool.false_eq_true, if_false]
    rw [ih (fun d hd => hw d (List.mem_cons_of_mem _ hd)) (c :: acc)]
    simp [List.append_assoc]

theorem wordsOf_nil : wordsOf [] = [] := rfl

theorem wordsAux_append_space {c : Char} (hc : isJsSpace c = true) :
    ∀ (a b acc : Str), wordsAux (a ++ c :: b) acc = wordsAux a acc ++ wordsOf b := by
  intro a
  induction a with
  | nil =>
    intro b acc
    simp only [List.nil_append, wordsAux, hc, if_true]
    rfl
  | cons x a2 ih =>
    intro b acc
    rw [List.cons_append]
    simp only [wordsAux]
    cases hx : isJsSpace x with
    | true =>
      simp only [if_true]
      rw [ih b [], List.append_assoc]
    | false =>
      simp only [Bool.false_eq_true, if_false]
      exact ih b (x :: acc)

theorem wordsOf_append_space {c : Char} (hc : isJsSpace c = true) (a b : Str) :
    wordsOf (a ++ c :: b) = wordsOf a ++ wordsOf b :=
  wordsAux_append_space hc a b []

theorem wordsOf_joinSpace : ∀ (ls : List Str),
    wordsOf (joinSpace ls) = (ls.map wordsOf).flatten := by
  intro ls
  induction ls with
  | nil => rfl
  | cons l ls2 ih =>
    rcases ls2 with _ | ⟨l2, ls3⟩
    · simp [joinSpace]
    · show wordsOf (l ++ ' ' :: joinSpace (l2 :: ls3)) = _
      rw [wordsOf_append_space (by decide), ih]
      simp

theorem wordsOf_all_space : ∀ (s : Str), (∀ c ∈ s, isJsSpace c = true) →
    wordsOf s = [] := by
  intro s
  induction s with
  | nil => intro _; rfl
  | cons c t ih =>
    intro h
    show wordsAux (c :: t) [] = []
    simp only [wordsAux, h c (List.mem_cons_self _ _), if_true]
    exact ih (fun d hd => h d (List.mem_cons_of_mem _ hd))

theorem jsTrim_nil_all_space {s : Str} (h : jsTrim s = []) :
    ∀ c ∈ s, isJsSpace c = true := by
  unfold jsTrim at h
  rw [List.reverse_eq_nil_iff, List.dropWhile_eq_nil_iff] at h
  have h2 : ∀ c ∈ s.dropWhile isJsSpace, isJsSpace c = true := by
    intro c hc
    exact h c (by simpa using List.mem_reverse.2 hc)
  intro c hc
  rw [← List.takeWhile_append_dropWhile (p := isJsSpace) (l := s)] at hc
  rcases List.mem_append.1 hc with h3 | h3
  · exact List.mem_takeWhile_imp h3
  · exact h2 c h3

theorem splitWsA_space_free : ∀ (s : Str),
    (∀ (acc : Str), (∀ c ∈ acc, isJsSpace c = false) →
      ∀ w ∈ splitWsA s (some acc), ∀ c ∈ w, isJsSpace c = false) ∧
    (∀ w ∈ splitWsA s none, ∀ c ∈ w, isJsSpace c = false) := by
  intro s
  induction s with
  | nil =>
    constructor
    · intro acc hacc w hw c hc
      simp only [splitWsA, List.mem_singleton] at hw
      exact hacc c (by rw [hw] at hc; simpa using hc)
    · intro w hw c hc
      simp only [splitWsA, List.mem_singleton] at hw
      rw [hw] at hc
      simp at hc
  | cons x t ih =>
    constructor
    · intro acc hacc w hw c hc
      simp only [splitWsA] at hw
      by_cases hx : isJsSpace x
      · rw [if_pos hx] at hw
        rcases List.mem_cons.1 hw with h1 | h1
        · exact hacc c (by rw [h1] at hc; simpa using hc)
        · exact ih.2 w h1 c hc
      · rw [if_neg hx] at hw
        refine ih.1 (x :: acc) ?_ w hw c hc
        intro d hd
        rcases List.mem_cons.1 hd with h1 | h1
        · rw [h1]; simpa using hx
        · exact hacc d h1
    · intro w hw c hc
      simp only [splitWsA] at hw
      by_cases hx : isJsSpace x
      · rw [if_pos hx] at hw
        exact ih.2 w hw c hc
      · rw [if_neg hx] at hw
        refine ih.1 [x] ?_ w hw c hc
        intro d hd
        rw [List.mem_singleton.1 hd]
        simpa using hx

theorem splitWsA_join : ∀ (s : Str),
    (∀ (acc : Str), (∀ c ∈ acc, isJsSpace c = false) →
      ((splitWsA s (some acc)).map wordsOf).flatten = wordsAux s acc) ∧
    ((splitWsA s none).map wordsOf).flatten = wordsAux s [] := by
  intro s
  induction s with
  | nil =>
    constructor
    · intro acc hacc
      show wordsOf acc.reverse ++ [] = emitW acc
      rw [List.append_nil, wordsOf, wordsAux_space_free _
        (fun c hc => hacc c (by simpa using hc)) []]
      simp [emitW]
    · rfl
  | cons x t ih =>
    constructor
    · intro acc hacc
      simp only [splitWsA, wordsAux]
      by_cases hx : isJsSpace x
      · simp only [hx, if_pos trivial, if_true]
        show wordsOf acc.reverse ++ ((splitWsA t none).map wordsOf).flatten =
          emitW acc ++ wordsAux t []
        rw [ih.2, wordsOf, wordsAux_space_free _
          (fun c hc => hacc c (by simpa using hc)) []]
        simp [emitW]
      · simp only [hx, Bool.false_eq_true, if_false]
        refine ih.1 (x :: acc) ?_
        intro d hd
        rcases List.mem_cons.1 hd with h1 | h1
        · rw [h1]; simpa using hx
        · exact hacc d h1
    · simp only [splitWsA, wordsAux]
      by_cases hx : isJsSpace x
      · simp only [hx, if_true]
        rw [ih.2]
        simp [emitW]
      · simp only [hx, Bool.false_eq_true, if_false]
        refine ih.1 [x] ?_
        intro d hd
        rw [List.mem_singleton.1 hd]
        simpa using hx

theorem splitWs_join (s : Str) : ((splitWs s).map wordsOf).flatten = wordsOf s :=
  (splitWsA_join s).1 [] (by intro c hc; simp at hc)

section WrapWords

variable {W : Type} [LinearOrder W]

/-- One wrap step preserves the flattened word sequence, provided the word
fits on a line by itself (so the character fallback does not fire). -/
theorem wrapStep_words (measure : Str → W) (maxW : W) (st : List Str × Str) (w : Str)
    (hw : measure w ≤ maxW) :
    (((wrapStep measure maxW st w).1.map wordsOf).flatten ++
        wordsOf (wrapStep measure maxW st w).2) =
      ((st.1.map wordsOf).flatten ++ wordsOf st.2) ++ wordsOf w := by
  by_cases he : st.2 = []
  · simp only [wrapStep, he, eq_self_iff_true, if_true]
    rw [if_pos hw]
    show (st.1.map wordsOf).flatten ++ wordsOf w = _
    rw [wordsOf_nil, List.append_nil]
  · simp only [wrapStep, he, if_false]
    by_cases hfit : measure (st.2 ++ ' ' :: w) ≤ maxW
    · rw [if_pos hfit]
      show (st.1.map wordsOf).flatten ++ wordsOf (st.2 ++ ' ' :: w) = _
      rw [wordsOf_append_space (by decide), ← List.append_assoc]
    · rw [if_neg hfit, if_neg (not_lt.2 hw)]
      show ((st.1 ++ [st.2]).map wordsOf).flatten ++ wordsOf w = _
      rw [List.map_append, List.flatten_append]
      simp [List.append_assoc]

/-- The whole fold over the words preserves the flattened word sequence. -/
theorem wrapFold_words (measure : Str → W) (maxW : W) :
    ∀ (ws : List Str) (st : List Str × Str), (∀ w ∈ ws, measure w ≤ maxW) →
      (((ws.foldl (wrapStep measure maxW) st).1.map wordsOf).flatten ++
          wordsOf (ws.foldl (wrapStep measure maxW) st).2) =
        ((st.1.map wordsOf).flatten ++ wordsOf st.2) ++ (ws.map wordsOf).flatten := by
  intro ws
  induction ws with
  | nil => intro st _; simp
  | cons w ws2 ih =>
    intro st hfit
    rw [List.foldl_cons,
      ih (wrapStep measure maxW st w) (fun w2 hw2 => hfit w2 (List.mem_cons_of_mem _ hw2)),
      wrapStep_words measure maxW st w (hfit w (List.mem_cons_self _ _))]
    simp [List.append_assoc]

/-- C2 (amended): when every whitespace-separated field of the line fits
within `maxWidth` on its own (so the character-level fallback never fires),
joining the wrapped lines with single spaces reconstructs the original line
modulo whitespace normalization — the exact word sequence is preserved: no
words dropped, duplicated, reordered, or split — and a blank input line
yields exactly one empty output line. -/
theorem wrapLine_reconstruction (measure : Str → W) (maxW : W) (line : Str)
    (hfit : ∀ w ∈ splitWs line, measure w ≤ maxW) :
    wordsOf (joinSpace (wrapLine measure maxW line)) = wordsOf line ∧
    normWs (joinSpace (wrapLine measure maxW line)) = normWs line ∧
    (jsTrim line = [] → wrapLine measure maxW line = [[]]) := by
  have h1 : wordsOf (joinSpace (wrapLine measure maxW line)) = wordsOf line := by
    by_cases hb : jsTrim line = []
    · simp only [wrapLine, hb, if_pos rfl]
      show wordsOf (joinSpace [[]]) = wordsOf line
      rw [wordsOf_all_space line (jsTrim_nil_all_space hb)]
      rfl
    · simp only [wrapLine, if_neg hb]
      rw [wordsOf_joinSpace]
      have hfold := wrapFold_words measure maxW (splitWs line) ([], []) hfit
      by_cases he : ((splitWs line).foldl (wrapStep measure maxW) ([], [])).2 = []
      · rw [if_pos he]
        rw [he, wordsOf_nil, List.append_nil] at hfold
        rw [hfold]
        show ([] : List Str) ++ _ = _
        rw [List.nil_append, splitWs_join]
      · rw [if_neg he, List.map_append, List.flatten_append]
        show _ ++ (wordsOf _ ++ []) = _
        rw [List.append_nil, hfold]
        show ([] : List Str) ++ _ = _
        rw [List.nil_append, splitWs_join]
  refine ⟨h1, congrArg joinSpace h1, ?_⟩
  intro hb
  simp [wrapLine, hb]

end WrapWords

/-- C2 (counterexample): with `measure` the length and `maxWidth` 2, the
word `"abcd"` is split by the character fallback into `"ab"`, `"cd"`, so
joining the wrapped lines with spaces gives `"ab cd"`, which is not the
whitespace-normalization of `"abcd"` — the word was split, not preserved. -/
theorem wrapLine_reconstruction_cex :
    normWs (joinSpace (wrapLine (List.length) 2 ("abcd".data))) ≠
      normWs ("abcd".data) := by decide

/-- Witness for C2 (amended) at a concrete measure, width and line. -/
theorem wrapLine_reconstruction_wit :
    (∀ w ∈ splitWs ("ab cd x".data), List.length w ≤ 5) ∧
    wordsOf (joinSpace (wrapLine (List.length) 5 ("ab cd x".data))) =
      wordsOf ("ab cd x".data) :=
  ⟨by decide, (wrapLine_reconstruction (List.length) 5 ("ab cd x".data) (by decide)).1⟩

/-! ## The fixed-layout page loop (C8) -/

theorem annotate_fst : ∀ (ls : List Str) (y : ℤ), (annotate ls y).map Prod.fst = ls := by
  intro ls
  induction ls with
  | nil => intro y; rfl
  | cons l ls2 ih => intro y; simp [annotate, ih]

theorem annotate_length : ∀ (ls : List Str) (y : ℤ), (annotate ls y).length = ls.length := by
  intro ls
  induction ls with
  | nil => intro y; rfl
  | cons l ls2 ih => intro y; simp [annotate, ih]

theorem annotate_get_snd : ∀ (ls : List Str) (y : ℤ) (i : ℕ) (h : i < (annotate ls y).length),
    ((annotate ls y).get ⟨i, h⟩).2 = y - ((i : ℤ) + 1) * LINE_HEIGHT := by
  intro ls
  induction ls with
  | nil => intro y i h; simp [annotate] at h
  | cons l ls2 ih =>
    intro y i h
    cases i with
    | zero => simp [annotate]
    | succ j =>
      have h2 : j < (annotate ls2 (y - LINE_HEIGHT)).length := by
        simp only [annotate, List.length_cons] at h
        omega
      show ((annotate ls2 (y - LINE_HEIGHT)).get ⟨j, h2⟩).2 = _
      rw [ih (y - LINE_HEIGHT) j h2]
      push_cast
      ring

theorem linRun_spec : ∀ (L : List Str) (y : ℤ) (acc : List (Str × ℤ)), MARGIN ≤ y →
    ∃ m, m ≤ L.length ∧
      (linRun L y acc).drawn = acc ++ annotate (L.take m) y ∧
      (m : ℤ) * LINE_HEIGHT ≤ y - MARGIN ∧
      ((linRun L y acc).overflow = false → m = L.length) ∧
      ((linRun L y acc).overflow = true ↔ y - MARGIN < (L.length : ℤ) * LINE_HEIGHT) := by
  intro L
  induction L with
  | nil =>
    intro y acc hy
    refine ⟨0, le_rfl, by simp [linRun, annotate], by simpa using hy, fun _ => rfl, ?_⟩
    constructor
    · intro h
      simp [linRun] at h
    · intro h
      exfalso
      simp only [List.length_nil, Nat.cast_zero, zero_mul] at h
      omega
  | cons l ls ih =>
    intro y acc hy
    simp only [linRun]
    by_cases hbr : y - LINE_HEIGHT < MARGIN
    · rw [if_pos hbr]
      have hlh : y - MARGIN < ((ls.length : ℤ) + 1) * LINE_HEIGHT := by
        have hlen : (0 : ℤ) ≤ (ls.length : ℤ) := by positivity
        simp only [LINE_HEIGHT, MARGIN] at hbr ⊢
        nlinarith
      refine ⟨0, by simp, by simp [annotate], by simpa using hy, ?_, ?_⟩
      · intro h
        simp at h
      · constructor
        · intro _
          simp only [List.length_cons]
          push_cast
          exact hlh
        · intro _
          rfl
    · rw [if_neg hbr]
      have hy2 : MARGIN ≤ y - LINE_HEIGHT := not_lt.1 hbr
      obtain ⟨m, hmle, hdrawn, hbound, hfull, hiff⟩ :=
        ih (y - LINE_HEIGHT) (acc ++ [(l, y - LINE_HEIGHT)]) hy2
      refine ⟨m + 1, by simp only [List.length_cons]; omega, ?_, ?_, ?_, ?_⟩
      · rw [hdrawn, List.take_succ_cons]
        show _ = acc ++ ((l, y - LINE_HEIGHT) :: annotate (ls.take m) (y - LINE_HEIGHT))
        simp [List.append_assoc]
      · simp only [LINE_HEIGHT, MARGIN] at hbound ⊢
        push_cast
        omega
      · intro hov
        rw [hfull hov, List.length_cons]
      · rw [hiff]
        simp only [List.length_cons, LINE_HEIGHT, MARGIN]
        push_cast
        constructor <;> (intro h; omega)

theorem linRun_y_false : ∀ (L : List Str) (y : ℤ) (acc : List (Str × ℤ)), MARGIN ≤ y →
    (linRun L y acc).overflow = false → MARGIN ≤ (linRun L y acc).y := by
  intro L
  induction L with
  | nil => intro y acc hy _; exact hy
  | cons l ls ih =>
    intro y acc hy hov
    simp only [linRun] at hov ⊢
    by_cases hbr : y - LINE_HEIGHT < MARGIN
    · rw [if_pos hbr] at hov
      simp at hov
    · rw [if_neg hbr] at hov ⊢
      exact ih (y - LINE_HEIGHT) _ (not_lt.1 hbr) hov

theorem linRun_y_true : ∀ (L : List Str) (y : ℤ) (acc : List (Str × ℤ)),
    (linRun L y acc).overflow = true → (linRun L y acc).y < MARGIN := by
  intro L
  induction L with
  | nil => intro y acc hov; simp [linRun] at hov
  | cons l ls ih =>
    intro y acc hov
    simp only [linRun] at hov ⊢
    by_cases hbr : y - LINE_HEIGHT < MARGIN
    · rw [if_pos hbr]
      exact hbr
    · rw [if_neg hbr] at hov ⊢
      exact ih (y - LINE_HEIGHT) _ hov

theorem linRun_nil (y : ℤ) (acc : List (Str × ℤ)) : linRun [] y acc = ⟨y, acc, false⟩ := rfl

theorem linRun_cons (l : Str) (ls : List Str) (y : ℤ) (acc : List (Str × ℤ)) :
    linRun (l :: ls) y acc =
      (if y - LINE_HEIGHT < MARGIN then ⟨y - LINE_HEIGHT, acc, true⟩
       else linRun ls (y - LINE_HEIGHT) (acc ++ [(l, y - LINE_HEIGHT)])) := rfl

theorem outerLoop_cons (measure : Str → ℤ) (p : Str) (ps : List Str) (y : ℤ)
    (acc : List (Str × ℤ)) :
    outerLoop measure (p :: ps) y acc =
      (if (linRun (wrapLine measure pdfMaxWidth p) y acc).y < MARGIN
       then ⟨(linRun (wrapLine measure pdfMaxWidth p) y acc).y,
         (linRun (wrapLine measure pdfMaxWidth p) y acc).drawn, true⟩
       else outerLoop measure ps (linRun (wrapLine measure pdfMaxWidth p) y acc).y
         (linRun (wrapLine measure pdfMaxWidth p) y acc).drawn) := rfl

theorem linRun_append : ∀ (xs ys : List Str) (y : ℤ) (acc : List (Str × ℤ)),
    linRun (xs ++ ys) y acc =
      (if (linRun xs y acc).overflow then linRun xs y acc
       else linRun ys (linRun xs y acc).y (linRun xs y acc).drawn) := by
  intro xs
  induction xs with
  | nil => intro ys y acc; simp [linRun_nil]
  | cons x xs2 ih =>
    intro ys y acc
    rw [List.cons_append, linRun_cons, linRun_cons]
    by_cases hbr : y - LINE_HEIGHT < MARGIN
    · rw [if_pos hbr, if_pos hbr]
      rfl
    · rw [if_neg hbr, if_neg hbr]
      exact ih ys (y - LINE_HEIGHT) (acc ++ [(x, y - LINE_HEIGHT)])

theorem outerLoop_eq_linRun (measure : Str → ℤ) : ∀ (ps : List Str) (y : ℤ)
    (acc : List (Str × ℤ)), MARGIN ≤ y →
    outerLoop measure ps y acc =
      linRun ((ps.map (wrapLine measure pdfMaxWidth)).flatten) y acc := by
  intro ps
  induction ps with
  | nil => intro y acc _; rfl
  | cons p ps2 ih =>
    intro y acc hy
    rw [outerLoop_cons, List.map_cons, List.flatten_cons, linRun_append]
    cases hov : (linRun (wrapLine measure pdfMaxWidth p) y acc).overflow with
    | true =>
      have hlt := linRun_y_true _ _ _ hov
      rw [if_pos hlt, if_pos rfl]
      cases hres : linRun (wrapLine measure pdfMaxWidth p) y acc with
      | mk ry rd rov =>
        rw [hres] at hov
        simp only [hres]
        exact congrArg (fun b => ({ y := ry, drawn := rd, overflow := b } : LayoutResult)) hov.symm
    | false =>
      have hge := linRun_y_false _ _ _ hy hov
      rw [if_neg (not_lt.2 hge), if_neg Bool.false_ne_true]
      exact ih _ _ hge

/-- C8: In the PDF export the vertical cursor starts at `PAGE_H - MARGIN` and
drops by `LINE_HEIGHT` for every output line: the i-th drawn line sits at
`PAGE_H - MARGIN - (i + 1) * LINE_HEIGHT`, every drawn line sits at or above
the bottom margin, the loop breaks (the overflow condition) exactly when the
wrapped line count times the line height exceeds `PAGE_H - 2 * MARGIN`, the
drawn lines are an initial prefix of the wrapped lines (once one line fails
to fit, no further line is drawn), and without overflow every wrapped line
is drawn. -/
theorem pdfLayout_spec (measure : Str → ℤ) (text : Str) :
    (∀ d ∈ (pdfLayout measure text).drawn, MARGIN ≤ d.2) ∧
    (∀ (i : ℕ) (h : i < (pdfLayout measure text).drawn.length),
      ((pdfLayout measure text).drawn.get ⟨i, h⟩).2
        = PAGE_H - MARGIN - ((i : ℤ) + 1) * LINE_HEIGHT) ∧
    ((pdfLayout measure text).overflow = true ↔
      PAGE_H - 2 * MARGIN <
        ((((splitNl text).map (wrapLine measure pdfMaxWidth)).flatten.length : ℤ)
          * LINE_HEIGHT)) ∧
    ((pdfLayout measure text).drawn.map Prod.fst
      = ((splitNl text).map (wrapLine measure pdfMaxWidth)).flatten.take
          (pdfLayout measure text).drawn.length) ∧
    ((pdfLayout measure text).overflow = false →
      (pdfLayout measure text).drawn.map Prod.fst
        = ((splitNl text).map (wrapLine measure pdfMaxWidth)).flatten) := by
  have hy0 : MARGIN ≤ PAGE_H - MARGIN := by decide
  have heq : pdfLayout measure text =
      linRun (((splitNl text).map (wrapLine measure pdfMaxWidth)).flatten)
        (PAGE_H - MARGIN) [] := by
    show outerLoop measure (splitNl text) (PAGE_H - MARGIN) [] = _
    exact outerLoop_eq_linRun measure (splitNl text) (PAGE_H - MARGIN) [] hy0
  rw [heq]
  obtain ⟨m, hmle, hdrawn, hbound, hfull, hiff⟩ :=
    linRun_spec (((splitNl text).map (wrapLine measure pdfMaxWidth)).flatten)
      (PAGE_H - MARGIN) [] hy0
  rw [List.nil_append] at hdrawn
  have hLH : (0 : ℤ) ≤ LINE_HEIGHT := by decide
  refine ⟨?_, ?_, ?_, ?_, ?_⟩
  · intro d hd
    rw [hdrawn] at hd
    obtain ⟨⟨i, hi⟩, hget⟩ := List.mem_iff_get.1 hd
    rw [← hget, annotate_get_snd]
    have him : i < m := by
      have h1 := hi
      rw [annotate_length] at h1
      have h2 := List.length_take_le m
        (((splitNl text).map (wrapLine measure pdfMaxWidth)).flatten)
      omega
    have hcast : ((i : ℤ) + 1) ≤ (m : ℤ) := by exact_mod_cast him
    have hmul : ((i : ℤ) + 1) * LINE_HEIGHT ≤ (m : ℤ) * LINE_HEIGHT :=
      mul_le_mul_of_nonneg_right hcast hLH
    linarith
  · intro i h
    have key : ∀ (dl : List (Str × ℤ)),
        dl = annotate
          ((((splitNl text).map (wrapLine measure pdfMaxWidth)).flatten).take m)
          (PAGE_H - MARGIN) →
        ∀ (h2 : i < dl.length),
        (dl.get ⟨i, h2⟩).2 = PAGE_H - MARGIN - ((i : ℤ) + 1) * LINE_HEIGHT := by
      intro dl hdl
      subst hdl
      intro h2
      exact annotate_get_snd _ _ i h2
    exact key _ hdrawn h
  · rw [hiff]
    constructor <;> intro h <;> linarith
  · rw [hdrawn, annotate_fst, annotate_length, List.length_take,
      Nat.min_eq_left hmle]
  · intro hov
    rw [hdrawn, annotate_fst, hfull hov, List.take_length]

theorem pdfLayout_spec_wit :
    (pdfLayout (fun s => (s.length : ℤ)) ("hi\nyou".data)).drawn.map Prod.fst =
      ((splitNl ("hi\nyou".data)).map
        (wrapLine (fun s => (s.length : ℤ)) pdfMaxWidth)).flatten :=
  (pdfLayout_spec (fun s => (s.length : ℤ)) ("hi\nyou".data)).2.2.2.2 (by decide)
